import Mathlib

/-!
Verification of the document-to-structured-data extraction and matching
pipeline of the ATS repository (`recruitment/utils.py`, `recruitment/views.py`).

The Python code is shallowly embedded: Python values flowing through the
scorer are modelled by `PyVal`, Python floats by `ℚ` (the scoring arithmetic
is exact decimal arithmetic on small rationals, so no binary-float behaviour
is load-bearing for the claims), Python strings by `String`, and the
external collaborators (PDF reader, generative-model API, JSON parser) by
explicit environment records, since those libraries are not part of the
repository.
-/

namespace ATS

/-- Model of a Python value as it flows through `calculate_match_score`,
`extract_cv_data` and the upload view: strings, ints, bools, `None`,
lists and (string-keyed) dicts. -/
inductive PyVal where
  | str (s : String)
  | int (n : Int)
  | bool (b : Bool)
  | none
  | list (xs : List PyVal)
  | dict (entries : List (String × PyVal))

/-- Characters stripped by Python's `str.strip()` / matched by regex `\s`
for the ASCII texts in play: space, tab, LF, CR, VT, FF. -/
def pyIsSpace (c : Char) : Bool :=
  c = ' ' || c = '\t' || c = '\n' || c = '\r' || c = '\x0b' || c = '\x0c'

/-- Python `str.lower()`; ASCII case mapping (the scorer's inputs are
ASCII summaries). -/
def pyLower (s : String) : String :=
  ⟨s.data.map Char.toLower⟩

/-- Accumulating tokenizer behind `pySplit`: gathers maximal runs of
non-whitespace characters, dropping the whitespace between them. -/
def splitWsAux : List Char → List Char → List String
  | [], acc => if acc.isEmpty then [] else [⟨acc.reverse⟩]
  | c :: rest, acc =>
    if pyIsSpace c then
      if acc.isEmpty then splitWsAux rest [] else (⟨acc.reverse⟩ : String) :: splitWsAux rest []
    else splitWsAux rest (c :: acc)

/-- Python `str.split()` with no argument: split on runs of whitespace,
discarding empty tokens. -/
def pySplit (s : String) : List String :=
  splitWsAux s.data []

/-- The set of distinct lower-cased whitespace-separated words of a
summary string: `set(summary.lower().split())` in the source. -/
def wordSet (s : String) : Finset String :=
  (pySplit (pyLower s)).toFinset

/-- Python `round(x, 2)` on the scorer's float, modelled exactly on `ℚ`. -/
def round2 (q : ℚ) : ℚ :=
  (round (q * 100) : ℤ) / 100

/-- Looks a key up in a dict's entry list (Python `data.get(key)` /
`key in data`; dict keys are unique, first match). -/
def dictGet (entries : List (String × PyVal)) (k : String) : Option PyVal :=
  List.lookup k entries

/-- Embedding of `utils.calculate_match_score`.  Non-dict arguments and a
missing `summary` key return `0.0` by the explicit guards in the source;
a present but non-string `summary` value makes `.lower()` raise
`AttributeError`, which the surrounding `try`/`except` converts to `0.0`
as well, so those branches also yield `0`. -/
def calculate_match_score (cv_data jd_summary : PyVal) : ℚ :=
  match cv_data, jd_summary with
  | .dict cvm, .dict jdm =>
    match dictGet cvm "summary", dictGet jdm "summary" with
    | some (.str cv_summary), some (.str jd_summary_str) =>
      let cv_words := wordSet cv_summary
      let jd_words := wordSet jd_summary_str
      round2 (if jd_words.card = 0 then 0
              else ((cv_words ∩ jd_words).card : ℚ) / (jd_words.card : ℚ) * 100)
    | _, _ => 0
  | _, _ => 0

/-- Scoring formula exactly as the specification words it: lower-case both
summaries, tokenize on whitespace into sets of words, compute
`|intersection| / |jobWords| * 100` rounded to two decimals, `0.0` when the
job's word set is empty. -/
def spec_matchScore (cv jd : String) : ℚ :=
  if (wordSet jd).card = 0 then 0
  else round2 (((wordSet cv ∩ wordSet jd).card : ℚ) / ((wordSet jd).card : ℚ) * 100)

/-- Embedding of the scoring call in `views.upload` (line 155): the view
passes `jd_result.get('summary', '')` — the summary *string*, not the
summary record — as the second argument of `calculate_match_score`. -/
def upload_match_score (jd_result cv_data : PyVal) : ℚ :=
  calculate_match_score cv_data
    (match jd_result with
     | .dict m => (dictGet m "summary").getD (.str "")
     | _ => .str "")

theorem round2_zero : round2 0 = 0 := by
  simp [round2]

/-- Extracts the string under `'summary'` of a dict value; `none` when the
argument is not a dict, lacks the key, or holds a non-string there. -/
def summaryString : PyVal → Option String
  | .dict m =>
    match dictGet m "summary" with
    | some (.str s) => some s
    | _ => Option.none
  | _ => Option.none

/-- C2: for dict inputs that both carry a string-valued `summary`,
`calculate_match_score` returns exactly the word-overlap formula of the
specification: `|W(cv) ∩ W(jd)| / |W(jd)| * 100` rounded to two decimals,
and `0.0` (not a division error) when the job's word set is empty. -/
theorem c2_match_score_formula (cvm jdm : List (String × PyVal)) (cs js : String)
    (h1 : dictGet cvm "summary" = some (.str cs))
    (h2 : dictGet jdm "summary" = some (.str js)) :
    calculate_match_score (.dict cvm) (.dict jdm) = spec_matchScore cs js := by
  by_cases hc : (wordSet js).card = 0 <;>
    simp [calculate_match_score, spec_matchScore, h1, h2, hc, round2_zero]

theorem c2_match_score_formula_witness :
    calculate_match_score
        (.dict [("summary", .str "Python, Django, 3 years experience")])
        (.dict [("summary", .str "Python, 3 years, B.Tech")]) =
      spec_matchScore "Python, Django, 3 years experience" "Python, 3 years, B.Tech" :=
  c2_match_score_formula _ _ _ _ rfl rfl

/-- C7: whenever either argument is not a dict, lacks the `summary` key, or
holds a non-string `summary` value, `calculate_match_score` returns `0.0`
(the guards return it directly; the `AttributeError` of `.lower()` on a
non-string is caught by the function's `try`/`except`, which also returns
`0.0` — the embedding is a total function, so no exception escapes). -/
theorem c7_match_score_malformed_zero (cv jd : PyVal)
    (h : summaryString cv = Option.none ∨ summaryString jd = Option.none) :
    calculate_match_score cv jd = 0 := by
  cases cv with
  | dict cvm =>
    cases jd with
    | dict jdm =>
      simp only [summaryString] at h
      rcases h1 : dictGet cvm "summary" with _ | v1 <;>
        rcases h2 : dictGet jdm "summary" with _ | v2 <;>
          simp only [calculate_match_score, h1, h2]
      cases v1 <;> cases v2 <;> simp_all
    | str s => rfl
    | int n => rfl
    | bool b => rfl
    | none => rfl
    | list xs => rfl
  | str s => cases jd <;> rfl
  | int n => cases jd <;> rfl
  | bool b => cases jd <;> rfl
  | none => cases jd <;> rfl
  | list xs => cases jd <;> rfl

theorem c7_match_score_malformed_zero_witness :
    calculate_match_score (.str "python") (.dict [("summary", .int 3)]) = 0 :=
  c7_match_score_malformed_zero _ _ (Or.inl rfl)

/-- C10: the score depends only on the sets of distinct lower-cased
whitespace-separated words of the two summaries — two pairs of well-formed
inputs whose summaries have equal word sets (e.g. after duplicating words,
reordering words, or changing letter case) receive equal scores. -/
theorem c10_match_score_wordset_invariant
    (cvm₁ jdm₁ cvm₂ jdm₂ : List (String × PyVal)) (s₁ t₁ s₂ t₂ : String)
    (h1 : dictGet cvm₁ "summary" = some (.str s₁))
    (h2 : dictGet jdm₁ "summary" = some (.str t₁))
    (h3 : dictGet cvm₂ "summary" = some (.str s₂))
    (h4 : dictGet jdm₂ "summary" = some (.str t₂))
    (hs : wordSet s₁ = wordSet s₂) (ht : wordSet t₁ = wordSet t₂) :
    calculate_match_score (.dict cvm₁) (.dict jdm₁) =
      calculate_match_score (.dict cvm₂) (.dict jdm₂) := by
  simp [calculate_match_score, h1, h2, h3, h4, hs, ht]

theorem c10_match_score_wordset_invariant_witness :
    calculate_match_score (.dict [("summary", .str "Python python DJANGO")])
        (.dict [("summary", .str "django python")]) =
      calculate_match_score (.dict [("summary", .str "django Python")])
        (.dict [("summary", .str "PYTHON django django")]) :=
  c10_match_score_wordset_invariant _ _ _ _ _ _ _ _ rfl rfl rfl rfl (by decide) (by decide)

/-- C1: the end-to-end flow is broken — `views.upload` passes the job
summary *string* (`jd_result.get('summary', '')`) instead of the job
record to `calculate_match_score`, whose dict guard then returns `0.0`.
At the claim's own example (job summary `"Python, 3 years, B.Tech"`,
candidate summary `"Python, Django, 3 years experience"`, sharing the word
`python`) the orchestrator's score is `0`, not `> 0`, although the scorer
called on the two records would return a positive score. -/
theorem c1_upload_score_is_zero :
    upload_match_score
        (.dict [("job_title", .str "Software Engineer"),
                ("summary", .str "Python, 3 years, B.Tech")])
        (.dict [("name", .str "Jane"), ("email", .str "jane@example.com"),
                ("summary", .str "Python, Django, 3 years experience")]) = 0 ∧
    0 < calculate_match_score
        (.dict [("name", .str "Jane"), ("email", .str "jane@example.com"),
                ("summary", .str "Python, Django, 3 years experience")])
        (.dict [("job_title", .str "Software Engineer"),
                ("summary", .str "Python, 3 years, B.Tech")]) := by
  refine ⟨rfl, ?_⟩
  have h1 : dictGet [("name", PyVal.str "Jane"), ("email", PyVal.str "jane@example.com"),
      ("summary", PyVal.str "Python, Django, 3 years experience")] "summary" =
      some (.str "Python, Django, 3 years experience") := rfl
  have h2 : dictGet [("job_title", PyVal.str "Software Engineer"),
      ("summary", PyVal.str "Python, 3 years, B.Tech")] "summary" =
      some (.str "Python, 3 years, B.Tech") := rfl
  have hi : (wordSet "Python, Django, 3 years experience" ∩
      wordSet "Python, 3 years, B.Tech").card = 2 := by decide
  have hj : (wordSet "Python, 3 years, B.Tech").card = 4 := by decide
  simp only [calculate_match_score, h1, h2, hi, hj]
  norm_num [round2, round_eq]

/-! ## AI gateway: `make_api_call` under `retry_on_quota_exceeded` -/

/-- Outcome of one raw provider invocation (`model.generate_content`):
either a response text or a raised exception carrying a message. -/
inductive ApiResponse where
  | ok (text : String)
  | err (msg : String)

/-- The exception surfaced by one `make_api_call` attempt: the
`QuotaExceededError` raised for messages containing `"429"`, or the
original exception re-raised unchanged. -/
inductive CallError where
  | quota (msg : String)
  | other (msg : String)

/-- Python's `needle in haystack` substring test. -/
def containsSub (needle : List Char) : List Char → Bool
  | [] => needle.isEmpty
  | c :: t => needle.isPrefixOf (c :: t) || containsSub needle t

/-- The `"429" in str(e)` classification test of `make_api_call`. -/
def has429 (msg : String) : Bool :=
  containsSub "429".data msg.data

/-- One attempt of the body of `make_api_call`: call the provider; an error
whose message contains `"429"` becomes `QuotaExceededError("Quota exceeded:
" + msg)`, every other error propagates unchanged. -/
def attemptOutcome (r : ApiResponse) : Except CallError String :=
  match r with
  | .ok t => .ok t
  | .err m => if has429 m then .error (.quota ("Quota exceeded: " ++ m)) else .error (.other m)

/-- The delay `wait_exponential(multiplier=1, min=4, max=10)` computes after
the `n`-th failed attempt (1-based): `1 * 2^n` clamped into `[4, 10]`. -/
def retryWait (n : ℕ) : ℕ :=
  max 4 (min (2 ^ n) 10)

/-- Embedding of `make_api_call` with its `retry_on_quota_exceeded`
decorator (`stop_after_attempt(3)`, retry only on `QuotaExceededError`),
run against a provider behaviour giving the outcome of each attempt.
Returns the final result, the number of attempts made, and the list of
back-off delays slept (modelled from the spec for the tenacity
collaborator, which is not part of the repository: after the third quota
failure the quota condition is surfaced to the caller). -/
def make_api_call (provider : ℕ → ApiResponse) :
    Except CallError String × ℕ × List ℕ :=
  match attemptOutcome (provider 0) with
  | .ok t => (.ok t, 1, [])
  | .error (.other m) => (.error (.other m), 1, [])
  | .error (.quota _) =>
    match attemptOutcome (provider 1) with
    | .ok t => (.ok t, 2, [retryWait 1])
    | .error (.other m) => (.error (.other m), 2, [retryWait 1])
    | .error (.quota _) =>
      match attemptOutcome (provider 2) with
      | .ok t => (.ok t, 3, [retryWait 1, retryWait 2])
      | .error e => (.error e, 3, [retryWait 1, retryWait 2])

/-- C4: for every provider behaviour, `make_api_call` makes at most 3
attempts and every back-off delay lies in `[4, 10]`; a first-attempt error
without `"429"` propagates immediately with no retry; two quota failures
followed by a success return the success on the third attempt; three quota
failures surface `QuotaExceededError` after exactly 3 attempts. -/
theorem c4_retry_on_quota (provider : ℕ → ApiResponse) :
    (make_api_call provider).2.1 ≤ 3 ∧
    (∀ w ∈ (make_api_call provider).2.2, 4 ≤ w ∧ w ≤ 10) ∧
    (∀ m, provider 0 = .err m → has429 m = false →
      make_api_call provider = (.error (.other m), 1, [])) ∧
    (∀ m0 m1 t, provider 0 = .err m0 → has429 m0 = true →
      provider 1 = .err m1 → has429 m1 = true → provider 2 = .ok t →
      make_api_call provider = (.ok t, 3, [4, 4])) ∧
    (∀ m0 m1 m2, provider 0 = .err m0 → has429 m0 = true →
      provider 1 = .err m1 → has429 m1 = true →
      provider 2 = .err m2 → has429 m2 = true →
      make_api_call provider =
        (.error (.quota ("Quota exceeded: " ++ m2)), 3, [4, 4])) := by
  have hw1 : retryWait 1 = 4 := by decide
  have hw2 : retryWait 2 = 4 := by decide
  have key : ∀ P : Except CallError String × ℕ × List ℕ → Prop,
      (∀ t, P (.ok t, 1, [])) → (∀ m, P (.error (.other m), 1, [])) →
      (∀ t, P (.ok t, 2, [retryWait 1])) → (∀ m, P (.error (.other m), 2, [retryWait 1])) →
      (∀ t, P (.ok t, 3, [retryWait 1, retryWait 2])) →
      (∀ e, P (.error e, 3, [retryWait 1, retryWait 2])) →
      P (make_api_call provider) := by
    intro P hA hB hC hD hE hF
    unfold make_api_call
    cases attemptOutcome (provider 0) with
    | ok t => exact hA t
    | error e =>
      cases e with
      | other m => exact hB m
      | quota m =>
        cases attemptOutcome (provider 1) with
        | ok t => exact hC t
        | error e1 =>
          cases e1 with
          | other m1 => exact hD m1
          | quota m1 =>
            cases attemptOutcome (provider 2) with
            | ok t => exact hE t
            | error e2 => exact hF e2
  refine ⟨?_, ?_, ?_, ?_, ?_⟩
  · refine key (fun r => r.2.1 ≤ 3) ?_ ?_ ?_ ?_ ?_ ?_ <;> intro x <;> simp
  · refine key (fun r => ∀ w ∈ r.2.2, 4 ≤ w ∧ w ≤ 10) ?_ ?_ ?_ ?_ ?_ ?_ <;>
      intro x <;> simp [hw1, hw2]
  · intro m hp h429
    unfold make_api_call
    simp [hp, attemptOutcome, h429]
  · intro m0 m1 t hp0 h0 hp1 h1 hp2
    unfold make_api_call
    simp [hp0, hp1, hp2, attemptOutcome, h0, h1, hw1, hw2]
  · intro m0 m1 m2 hp0 h0 hp1 h1 hp2 h2
    unfold make_api_call
    simp [hp0, hp1, hp2, attemptOutcome, h0, h1, h2, hw1, hw2]

theorem c4_retry_on_quota_witness :
    make_api_call (fun _ => .err "HTTP 429: quota exhausted") =
      (.error (.quota ("Quota exceeded: " ++ "HTTP 429: quota exhausted")), 3, [4, 4]) :=
  (c4_retry_on_quota (fun _ => .err "HTTP 429: quota exhausted")).2.2.2.2
    "HTTP 429: quota exhausted" "HTTP 429: quota exhausted" "HTTP 429: quota exhausted"
    rfl (by decide) rfl (by decide) rfl (by decide)

/-! ## Response sanitizer: `clean_json_response` -/

/-- Drops trailing characters satisfying `p`. -/
def dropTrailWhile (p : Char → Bool) (cs : List Char) : List Char :=
  (cs.reverse.dropWhile p).reverse

/-- Python `str.strip()` on a character list. -/
def pyStripChars (cs : List Char) : List Char :=
  dropTrailWhile pyIsSpace (cs.dropWhile pyIsSpace)

/-- Python `str.strip()`. -/
def pyStrip (s : String) : String :=
  ⟨pyStripChars s.data⟩

/-- Character-wise effect of the four quote-normalisation `replace` calls:
typographic single quotes become `'`, typographic double quotes become
`"`, everything else is untouched. -/
def qc (c : Char) : Char :=
  if c = '’' || c = '‘' then '\''
  else if c = '“' || c = '”' then '"'
  else c

/-- The quote-normalisation step of `clean_json_response`. -/
def normQuotes (cs : List Char) : List Char :=
  cs.map qc

/-- Drops the last `n` characters (Python slicing `[:-n]` for the fence
widths in play). -/
def dropLastN (n : ℕ) (cs : List Char) : List Char :=
  (cs.reverse.drop n).reverse

/-- The Markdown code-fence removal step: `text[7:-3]` after a
`` ```json``/`` ``` `` prefix-suffix check, `text[3:-3]` after a bare
fence check, re-stripped, otherwise unchanged. -/
def fenceStrip (cs : List Char) : List Char :=
  if "```json".data.isPrefixOf cs && "```".data.isSuffixOf cs then
    pyStripChars (dropLastN 3 (cs.drop 7))
  else if "```".data.isPrefixOf cs && "```".data.isSuffixOf cs then
    pyStripChars (dropLastN 3 (cs.drop 3))
  else cs

/-- The `re.sub(r'[\.,;]\s*}$', '}', text)` step: when the text ends with
`}` preceded (across whitespace) by `.`/`,`/`;`, the punctuation and the
whitespace are removed; otherwise the text is unchanged.  The pattern is
anchored at the end, so at most this one rewrite happens. -/
def puncFix (cs : List Char) : List Char :=
  match cs.reverse with
  | '}' :: r =>
    match r.dropWhile pyIsSpace with
    | p :: rest =>
      if p = '.' || p = ',' || p = ';' then rest.reverse ++ ['}'] else cs
    | [] => cs
  | _ => cs

/-- `content.replace("'", "\\'")` inside the double-quote escape step. -/
def escSingles : List Char → List Char
  | [] => []
  | c :: rest =>
    if c = '\'' then '\\' :: '\'' :: escSingles rest else c :: escSingles rest

/-- The `re.sub(r'"([^"]*)"', ...)` step as a scanner: double quotes are
paired left to right; in each paired segment embedded single quotes are
escaped; an unpaired trailing quote leaves its tail unchanged.  The
second argument buffers (reversed) the content scanned since the last
opening quote, `Option.none` meaning "outside any pair". -/
def dquoteFix : List Char → Option (List Char) → List Char
  | [], Option.none => []
  | [], some buf => '"' :: buf.reverse
  | c :: rest, Option.none =>
    if c = '"' then dquoteFix rest (some []) else c :: dquoteFix rest Option.none
  | c :: rest, some buf =>
    if c = '"' then '"' :: (escSingles buf.reverse ++ '"' :: dquoteFix rest Option.none)
    else dquoteFix rest (some (c :: buf))

/-- The `re.sub(r"'([^']*)'", r'"\1"')` step as the analogous scanner:
single quotes are paired left to right and each paired segment is
re-quoted with double quotes, its content unchanged. -/
def squoteFix : List Char → Option (List Char) → List Char
  | [], Option.none => []
  | [], some buf => '\'' :: buf.reverse
  | c :: rest, Option.none =>
    if c = '\'' then squoteFix rest (some []) else c :: squoteFix rest Option.none
  | c :: rest, some buf =>
    if c = '\'' then '"' :: (buf.reverse ++ '"' :: squoteFix rest Option.none)
    else squoteFix rest (some (c :: buf))

/-- Embedding of `utils.clean_json_response`: strip, normalise typographic
quotes, remove a Markdown fence, drop trailing punctuation before a final
`}`, escape single quotes inside double-quoted segments, convert
single-quoted segments to double-quoted ones. -/
def cleanChars (cs : List Char) : List Char :=
  squoteFix (dquoteFix (puncFix (fenceStrip (normQuotes (pyStripChars cs)))) Option.none)
    Option.none

/-- String-level `clean_json_response`. -/
def clean_json_response (s : String) : String :=
  ⟨cleanChars s.data⟩

/-! ## Strict JSON

`json.loads` is standard-library code outside this repository; "parses as
valid JSON" is modelled from the spec by the JSON grammar (RFC 8259):
values are objects, arrays, strings with the simple escapes, numbers,
`true`/`false`/`null`, with insignificant whitespace in the structural
positions.  (`\uXXXX` escapes are not modelled.) -/

/-- JSON insignificant whitespace. -/
def jsonWs (c : Char) : Bool :=
  c = ' ' || c = '\t' || c = '\n' || c = '\r'

/-- A list of JSON whitespace characters. -/
def WsOnly (cs : List Char) : Prop :=
  ∀ c ∈ cs, jsonWs c = true

/-- The simple string escapes: `\e` in the source denotes character `c`. -/
def escPair (e c : Char) : Prop :=
  (e = '"' ∧ c = '"') ∨ (e = '\\' ∧ c = '\\') ∨ (e = '/' ∧ c = '/') ∨
  (e = 'b' ∧ c = '\x08') ∨ (e = 'f' ∧ c = '\x0c') ∨ (e = 'n' ∧ c = '\n') ∨
  (e = 'r' ∧ c = '\r') ∨ (e = 't' ∧ c = '\t')

/-- Relation between a decoded string (first index) and its source
characters inside the quotes of a JSON string literal. -/
inductive JStrBody : List Char → List Char → Prop where
  | nil : JStrBody [] []
  | plain (c : Char) (ds cs : List Char) (hq : c ≠ '"') (hb : c ≠ '\\')
      (h : JStrBody ds cs) : JStrBody (c :: ds) (c :: cs)
  | esc (e c : Char) (ds cs : List Char) (he : escPair e c)
      (h : JStrBody ds cs) : JStrBody (c :: ds) ('\\' :: e :: cs)

/-- Consumes one or more digits. -/
def chompDigits (cs : List Char) : Option (List Char) :=
  if (cs.takeWhile Char.isDigit).isEmpty then Option.none
  else some (cs.dropWhile Char.isDigit)

/-- Consumes the integer part of a JSON number: `0`, or a nonzero digit
followed by digits. -/
def chompIntPart : List Char → Option (List Char)
  | '0' :: r => some r
  | cs => chompDigits cs

/-- Consumes an optional fraction part `.digits`. -/
def chompFrac : List Char → Option (List Char)
  | '.' :: r => chompDigits r
  | cs => some cs

/-- Consumes an optional sign followed by one or more digits. -/
def chompSignDigits : List Char → Option (List Char)
  | [] => Option.none
  | s :: r2 => if s = '+' || s = '-' then chompDigits r2 else chompDigits (s :: r2)

/-- Consumes an optional exponent part `(e|E)(+|-)?digits`. -/
def chompExp : List Char → Option (List Char)
  | [] => some []
  | c :: r => if c = 'e' || c = 'E' then chompSignDigits r else some (c :: r)

/-- The sign-free part of the numeral well-formedness check: integer
part, then optional fraction, then optional exponent, then end of input. -/
def numOKCore (cs1 : List Char) : Bool :=
  match chompIntPart cs1 with
  | Option.none => false
  | some r1 =>
    match chompFrac r1 with
    | Option.none => false
    | some r2 =>
      match chompExp r2 with
      | Option.none => false
      | some r3 => r3.isEmpty

/-- Whether a character list is a well-formed JSON numeral. -/
def numOK (cs : List Char) : Bool :=
  numOKCore (match cs with | '-' :: r => r | _ => cs)

mutual
/-- Abstract syntax of a JSON value; numbers keep their source numeral. -/
inductive Json where
  | str (s : String)
  | num (numeral : String)
  | boolean (b : Bool)
  | null
  | arr (elems : JsonList)
  | obj (members : JsonMembers)
/-- A list of JSON values (array elements). -/
inductive JsonList where
  | nil
  | cons (head : Json) (tail : JsonList)
/-- Object members in source order. -/
inductive JsonMembers where
  | nil
  | cons (key : String) (value : Json) (tail : JsonMembers)
end

mutual
/-- `JParse j cs` — the characters `cs` form a JSON value denoting `j`. -/
inductive JParse : Json → List Char → Prop where
  | str (s : String) (body : List Char) (h : JStrBody s.data body) :
      JParse (.str s) ('"' :: body ++ ['"'])
  | num (s : String) (h : numOK s.data = true) : JParse (.num s) s.data
  | true_lit : JParse (.boolean true) ['t', 'r', 'u', 'e']
  | false_lit : JParse (.boolean false) ['f', 'a', 'l', 's', 'e']
  | null_lit : JParse .null ['n', 'u', 'l', 'l']
  | arrNil (w : List Char) (hw : WsOnly w) : JParse (.arr .nil) ('[' :: w ++ [']'])
  | arrCons (es : JsonList) (cs : List Char) (h : JElems es cs) :
      JParse (.arr es) ('[' :: cs ++ [']'])
  | objNil (w : List Char) (hw : WsOnly w) : JParse (.obj .nil) ('{' :: w ++ ['}'])
  | objCons (ms : JsonMembers) (cs : List Char) (h : JMembers ms cs) :
      JParse (.obj ms) ('{' :: cs ++ ['}'])
/-- A nonempty comma-separated list of array elements. -/
inductive JElems : JsonList → List Char → Prop where
  | one (j : Json) (cs : List Char) (h : JElement j cs) : JElems (.cons j .nil) cs
  | more (j : Json) (cs : List Char) (es : JsonList) (cs2 : List Char)
      (h : JElement j cs) (hs : JElems es cs2) :
      JElems (.cons j es) (cs ++ ',' :: cs2)
/-- A value surrounded by insignificant whitespace. -/
inductive JElement : Json → List Char → Prop where
  | mk (w1 : List Char) (j : Json) (cs : List Char) (w2 : List Char)
      (hw1 : WsOnly w1) (h : JParse j cs) (hw2 : WsOnly w2) :
      JElement j (w1 ++ cs ++ w2)
/-- A nonempty comma-separated list of object members. -/
inductive JMembers : JsonMembers → List Char → Prop where
  | one (k : String) (v : Json) (cs : List Char) (h : JMember k v cs) :
      JMembers (.cons k v .nil) cs
  | more (k : String) (v : Json) (cs : List Char) (ms : JsonMembers) (cs2 : List Char)
      (h : JMember k v cs) (hs : JMembers ms cs2) :
      JMembers (.cons k v ms) (cs ++ ',' :: cs2)
/-- One `"key" : element` member. -/
inductive JMember : String → Json → List Char → Prop where
  | mk (w1 : List Char) (k : String) (body : List Char) (w2 : List Char)
      (v : Json) (cs : List Char) (hw1 : WsOnly w1) (hk : JStrBody k.data body)
      (hw2 : WsOnly w2) (h : JElement v cs) :
      JMember k v (w1 ++ '"' :: body ++ '"' :: w2 ++ ':' :: cs)
end

/-- A string parses as valid JSON: optional outer whitespace around a
value derivation. -/
def ValidJson (s : String) : Prop :=
  ∃ j w1 v w2, s.data = w1 ++ v ++ w2 ∧ WsOnly w1 ∧ WsOnly w2 ∧ JParse j v

/-! ### Shape of well-formed numerals -/

theorem chompDigits_spec {cs r : List Char} (h : chompDigits cs = some r) :
    ∃ ds, cs = ds ++ r ∧ ds ≠ [] ∧ ∀ c ∈ ds, c.isDigit = true := by
  unfold chompDigits at h
  split at h
  · exact absurd h (by simp)
  · rename_i hne
    refine ⟨cs.takeWhile Char.isDigit, ?_, ?_, ?_⟩
    · rw [← Option.some_inj.mp h, List.takeWhile_append_dropWhile]
    · simpa [List.isEmpty_iff] using hne
    · intro c hc
      exact List.mem_takeWhile_imp hc

theorem chompIntPart_spec {cs r : List Char} (h : chompIntPart cs = some r) :
    ∃ ds, cs = ds ++ r ∧ ds ≠ [] ∧ ∀ c ∈ ds, c.isDigit = true := by
  unfold chompIntPart at h
  split at h
  · rename_i r0
    refine ⟨['0'], ?_, by simp, by simp⟩
    simpa using Option.some_inj.mp h ▸ rfl
  · exact chompDigits_spec h

theorem chompFrac_spec {cs r : List Char} (h : chompFrac cs = some r) :
    cs = r ∨ ∃ ds, cs = '.' :: ds ++ r ∧ ds ≠ [] ∧ ∀ c ∈ ds, c.isDigit = true := by
  unfold chompFrac at h
  split at h
  · rename_i r0
    obtain ⟨ds, hds, hne, hdig⟩ := chompDigits_spec h
    exact Or.inr ⟨ds, by simp [hds], hne, hdig⟩
  · exact Or.inl (Option.some_inj.mp h)

theorem chompSignDigits_spec {cs r : List Char} (h : chompSignDigits cs = some r) :
    ∃ sn ds, cs = sn ++ ds ++ r ∧ (sn = [] ∨ sn = ['+'] ∨ sn = ['-']) ∧
      ds ≠ [] ∧ ∀ c ∈ ds, c.isDigit = true := by
  unfold chompSignDigits at h
  split at h
  · exact absurd h (by simp)
  · rename_i s r2
    split at h
    · rename_i hsn
      obtain ⟨ds, hds, hne, hdig⟩ := chompDigits_spec h
      refine ⟨[s], ds, by simp [hds], ?_, hne, hdig⟩
      rcases (by simpa using hsn : s = '+' ∨ s = '-') with rfl | rfl <;> simp
    · obtain ⟨ds, hds, hne, hdig⟩ := chompDigits_spec h
      exact ⟨[], ds, by simpa using hds, Or.inl rfl, hne, hdig⟩

theorem chompExp_spec {cs r : List Char} (h : chompExp cs = some r) :
    cs = r ∨ ∃ e sn ds, cs = e :: (sn ++ ds ++ r) ∧ (e = 'e' ∨ e = 'E') ∧
      (sn = [] ∨ sn = ['+'] ∨ sn = ['-']) ∧ ds ≠ [] ∧ ∀ c ∈ ds, c.isDigit = true := by
  unfold chompExp at h
  split at h
  · exact Or.inl (Option.some_inj.mp h)
  · rename_i c r0
    split at h
    · rename_i hE
      obtain ⟨sn, ds, hds, hsn, hne, hdig⟩ := chompSignDigits_spec h
      exact Or.inr ⟨c, sn, ds, by simp [hds], by simpa using hE, hsn, hne, hdig⟩
    · exact Or.inl (Option.some_inj.mp h)

/-- Decomposition of the sign-free part of a numeral. -/
theorem numOKCore_spec {cs1 : List Char} (h : numOKCore cs1 = true) :
    ∃ ipart fpart epart,
      cs1 = ipart ++ fpart ++ epart ∧
      ipart ≠ [] ∧ (∀ c ∈ ipart, c.isDigit = true) ∧
      (fpart = [] ∨ ∃ ds, fpart = '.' :: ds ∧ ds ≠ [] ∧ ∀ c ∈ ds, c.isDigit = true) ∧
      (epart = [] ∨ ∃ e sn ds, epart = e :: (sn ++ ds) ∧ (e = 'e' ∨ e = 'E') ∧
        (sn = [] ∨ sn = ['+'] ∨ sn = ['-']) ∧ ds ≠ [] ∧ ∀ c ∈ ds, c.isDigit = true) := by
  unfold numOKCore at h
  split at h
  · exact absurd h (by simp)
  · rename_i r1 hint
    split at h
    · exact absurd h (by simp)
    · rename_i r2 hfrac
      split at h
      · exact absurd h (by simp)
      · rename_i r3 hexp
        replace h : r3 = [] := by simpa [List.isEmpty_iff] using h
        subst h
        obtain ⟨ipart, hi, hine, hidig⟩ := chompIntPart_spec hint
        rcases chompFrac_spec hfrac with hf | ⟨ds, hf, hdne, hddig⟩
        · rcases chompExp_spec hexp with he | ⟨e, sn, eds, he, heE, hesn, hene, hedig⟩
          · exact ⟨ipart, [], r2, by simp [hi, hf, he], hine, hidig, Or.inl rfl, Or.inl he⟩
          · refine ⟨ipart, [], e :: (sn ++ eds), ?_, hine, hidig, Or.inl rfl,
              Or.inr ⟨e, sn, eds, by simp, heE, hesn, hene, hedig⟩⟩
            simp only [hi, hf, he]
            simp
        · rcases chompExp_spec hexp with he | ⟨e, sn, eds, he, heE, hesn, hene, hedig⟩
          · refine ⟨ipart, '.' :: ds, r2, ?_, hine, hidig,
              Or.inr ⟨ds, rfl, hdne, hddig⟩, Or.inl he⟩
            simp [hi, hf, he]
          · refine ⟨ipart, '.' :: ds, e :: (sn ++ eds), ?_, hine, hidig,
              Or.inr ⟨ds, rfl, hdne, hddig⟩,
              Or.inr ⟨e, sn, eds, by simp, heE, hesn, hene, hedig⟩⟩
            simp only [hi, hf, he]
            simp

/-- Full decomposition of a well-formed JSON numeral into sign, integer
part, fraction part and exponent part. -/
theorem numOK_spec {cs : List Char} (h : numOK cs = true) :
    ∃ sign ipart fpart epart,
      cs = sign ++ ipart ++ fpart ++ epart ∧
      (sign = [] ∨ sign = ['-']) ∧
      ipart ≠ [] ∧ (∀ c ∈ ipart, c.isDigit = true) ∧
      (fpart = [] ∨ ∃ ds, fpart = '.' :: ds ∧ ds ≠ [] ∧ ∀ c ∈ ds, c.isDigit = true) ∧
      (epart = [] ∨ ∃ e sn ds, epart = e :: (sn ++ ds) ∧ (e = 'e' ∨ e = 'E') ∧
        (sn = [] ∨ sn = ['+'] ∨ sn = ['-']) ∧ ds ≠ [] ∧ ∀ c ∈ ds, c.isDigit = true) := by
  unfold numOK at h
  rcases cs with _ | ⟨c, rest⟩
  · obtain ⟨i, f, e, hsplit, hrest⟩ := numOKCore_spec h
    exact ⟨[], i, f, e, by simpa using hsplit, Or.inl rfl, hrest⟩
  · by_cases hc : c = '-'
    · subst hc
      obtain ⟨i, f, e, hsplit, hrest⟩ := numOKCore_spec h
      exact ⟨['-'], i, f, e, by simpa using hsplit, Or.inr rfl, hrest⟩
    · have hm : (match c :: rest with | '-' :: r => r | x => c :: rest) = c :: rest := by
        split
        · rename_i r heq
          injection heq with h1 h2
          exact absurd h1 hc
        · rfl
      rw [hm] at h
      obtain ⟨i, f, e, hsplit, hrest⟩ := numOKCore_spec h
      exact ⟨[], i, f, e, by simpa using hsplit, Or.inl rfl, hrest⟩

/-- Characters a JSON value may start with. -/
def startOK (c : Char) : Bool :=
  c = '{' || c = '[' || c = '"' || c = '-' || c = 't' || c = 'f' || c = 'n' || c.isDigit

/-- Characters a JSON value may end with. -/
def okEnd (c : Char) : Bool :=
  c = '"' || c = '}' || c = ']' || c = 'e' || c = 'l' || c.isDigit

theorem numOK_head {cs : List Char} (h : numOK cs = true) :
    ∃ c r, cs = c :: r ∧ (c = '-' ∨ c.isDigit = true) := by
  obtain ⟨sign, i, f, e, hsplit, hsign, hine, hidig, -, -⟩ := numOK_spec h
  rcases hsign with rfl | rfl
  · rcases hi : i with _ | ⟨c, r⟩
    · exact absurd hi hine
    · exact ⟨c, r ++ f ++ e, by simp [hsplit, hi], Or.inr (hidig c (by simp [hi]))⟩
  · exact ⟨'-', i ++ f ++ e, by simp [hsplit], Or.inl rfl⟩

theorem numOK_last {cs : List Char} (h : numOK cs = true) :
    ∃ c, cs.getLast? = some c ∧ c.isDigit = true := by
  obtain ⟨sign, i, f, e, hsplit, hsign, hine, hidig, hf, he⟩ := numOK_spec h
  have digLast : ∀ ds : List Char, ds ≠ [] → (∀ c ∈ ds, c.isDigit = true) →
      ∃ c, ds.getLast? = some c ∧ c.isDigit = true := by
    intro ds hne hdig
    exact ⟨ds.getLast hne, List.getLast?_eq_getLast_of_ne_nil hne,
      hdig _ (List.getLast_mem hne)⟩
  subst hsplit
  rcases he with rfl | ⟨e0, sn, ds, rfl, -, -, hdne, hddig⟩
  · rcases hf with rfl | ⟨ds, rfl, hdne, hddig⟩
    · obtain ⟨c, hlast, hdig⟩ := digLast i hine hidig
      refine ⟨c, ?_, hdig⟩
      rw [List.append_nil, List.append_nil, List.getLast?_append_of_ne_nil _ hine]
      exact hlast
    · obtain ⟨c, hlast, hdig⟩ := digLast ds hdne hddig
      refine ⟨c, ?_, hdig⟩
      rw [List.append_nil, List.getLast?_append_of_ne_nil _ (by simp),
        show ('.' :: ds : List Char) = ['.'] ++ ds from rfl,
        List.getLast?_append_of_ne_nil _ hdne]
      exact hlast
  · obtain ⟨c, hlast, hdig⟩ := digLast ds hdne hddig
    refine ⟨c, ?_, hdig⟩
    rw [List.getLast?_append_of_ne_nil _ (by simp),
      show (e0 :: (sn ++ ds) : List Char) = (e0 :: sn) ++ ds from rfl,
      List.getLast?_append_of_ne_nil _ hdne]
    exact hlast

/-- Every character of a well-formed numeral is a digit or one of
`-`, `+`, `.`, `e`, `E`. -/
theorem numOK_alphabet {cs : List Char} (h : numOK cs = true) :
    ∀ c ∈ cs, c.isDigit = true ∨ c = '-' ∨ c = '+' ∨ c = '.' ∨ c = 'e' ∨ c = 'E' := by
  obtain ⟨sign, i, f, e, hsplit, hsign, hine, hidig, hf, he⟩ := numOK_spec h
  subst hsplit
  intro c hc
  simp only [List.mem_append] at hc
  rcases hc with ((hc | hc) | hc) | hc
  · rcases hsign with rfl | rfl
    · simp at hc
    · simp at hc
      tauto
  · exact Or.inl (hidig c hc)
  · rcases hf with rfl | ⟨ds, rfl, hdne, hddig⟩
    · simp at hc
    · rcases List.mem_cons.mp hc with rfl | hc
      · tauto
      · exact Or.inl (hddig c hc)
  · rcases he with rfl | ⟨e0, sn, ds, rfl, heE, hesn, hdne, hddig⟩
    · simp at hc
    · rcases List.mem_cons.mp hc with rfl | hc
      · rcases heE with rfl | rfl <;> tauto
      · rcases List.mem_append.mp hc with hc | hc
        · rcases hesn with rfl | rfl | rfl <;> simp at hc <;> subst hc <;> tauto
        · exact Or.inl (hddig c hc)

/-- Every JSON value derivation consumes a nonempty text starting with a
value-start character. -/
theorem getLast?_wrapped (a b : Char) (l : List Char) :
    (a :: (l ++ [b])).getLast? = some b := by
  rw [show a :: (l ++ [b]) = (a :: l) ++ [b] from rfl,
    List.getLast?_append_of_ne_nil _ (by simp)]
  rfl

theorem jparse_head {j : Json} {cs : List Char} (h : JParse j cs) :
    ∃ c r, cs = c :: r ∧ startOK c = true := by
  cases h with
  | str s body hb => exact ⟨'"', body ++ ['"'], rfl, by decide⟩
  | num s hn =>
    obtain ⟨c, r, hcr, hc⟩ := numOK_head hn
    refine ⟨c, r, hcr, ?_⟩
    rcases hc with rfl | hd
    · simp [startOK]
    · simp [startOK, hd]
  | true_lit => exact ⟨'t', _, rfl, by decide⟩
  | false_lit => exact ⟨'f', _, rfl, by decide⟩
  | null_lit => exact ⟨'n', _, rfl, by decide⟩
  | arrNil w hw => exact ⟨'[', _, rfl, by decide⟩
  | arrCons es cs2 h2 => exact ⟨'[', _, rfl, by decide⟩
  | objNil w hw => exact ⟨'{', _, rfl, by decide⟩
  | objCons ms cs2 h2 => exact ⟨'{', _, rfl, by decide⟩

/-- Every JSON value derivation ends with a value-end character. -/
theorem jparse_last {j : Json} {cs : List Char} (h : JParse j cs) :
    ∃ c, cs.getLast? = some c ∧ okEnd c = true := by
  cases h with
  | str s body hb => exact ⟨'"', getLast?_wrapped _ _ _, by decide⟩
  | num s hn =>
    obtain ⟨c, hlast, hd⟩ := numOK_last hn
    exact ⟨c, hlast, by simp [okEnd, hd]⟩
  | true_lit => exact ⟨'e', by simp, by decide⟩
  | false_lit => exact ⟨'e', by simp, by decide⟩
  | null_lit => exact ⟨'l', by simp, by decide⟩
  | arrNil w hw => exact ⟨']', getLast?_wrapped _ _ _, by decide⟩
  | arrCons es cs2 h2 => exact ⟨']', getLast?_wrapped _ _ _, by decide⟩
  | objNil w hw => exact ⟨'}', getLast?_wrapped _ _ _, by decide⟩
  | objCons ms cs2 h2 => exact ⟨'}', getLast?_wrapped _ _ _, by decide⟩

/-! ### The sanitizer is inert on (normalised) valid JSON -/

theorem jsonWs_pyIsSpace {c : Char} (h : jsonWs c = true) : pyIsSpace c = true := by
  simp only [jsonWs, Bool.or_eq_true, decide_eq_true_eq] at h
  rcases h with ((rfl | rfl) | rfl) | rfl <;> decide

theorem qc_ws {c : Char} (h : jsonWs c = true) : qc c = c := by
  simp only [jsonWs, Bool.or_eq_true, decide_eq_true_eq] at h
  rcases h with ((rfl | rfl) | rfl) | rfl <;> decide

theorem qc_of_not_smart {c : Char} (h1 : c ≠ '’') (h2 : c ≠ '‘') (h3 : c ≠ '“')
    (h4 : c ≠ '”') : qc c = c := by
  simp [qc, h1, h2, h3, h4]

theorem digit_val {c : Char} (h : c.isDigit = true) : 48 ≤ c.val ∧ c.val ≤ 57 := by
  simpa [Char.isDigit] using h

theorem digit_cases {c : Char} (h : c.isDigit = true) :
    c ≠ '’' ∧ c ≠ '‘' ∧ c ≠ '“' ∧ c ≠ '”' ∧ c ≠ '}' ∧ c ≠ '.' ∧ c ≠ ',' ∧ c ≠ ';' ∧
      pyIsSpace c = false := by
  have hv := digit_val h
  refine ⟨?_, ?_, ?_, ?_, ?_, ?_, ?_, ?_, ?_⟩
  · rintro rfl; exact absurd hv (by decide)
  · rintro rfl; exact absurd hv (by decide)
  · rintro rfl; exact absurd hv (by decide)
  · rintro rfl; exact absurd hv (by decide)
  · rintro rfl; exact absurd hv (by decide)
  · rintro rfl; exact absurd hv (by decide)
  · rintro rfl; exact absurd hv (by decide)
  · rintro rfl; exact absurd hv (by decide)
  · cases hps : pyIsSpace c
    · rfl
    · exfalso
      simp only [pyIsSpace, Bool.or_eq_true, decide_eq_true_eq] at hps
      rcases hps with ((((rfl | rfl) | rfl) | rfl) | rfl) | rfl <;> exact absurd hv (by decide)

theorem okEnd_cases {c : Char} (h : okEnd c = true) :
    c = '"' ∨ c = '}' ∨ c = ']' ∨ c = 'e' ∨ c = 'l' ∨ c.isDigit = true := by
  simp only [okEnd, Bool.or_eq_true, decide_eq_true_eq] at h
  tauto

theorem okEnd_qc {c : Char} (h : okEnd c = true) : qc c = c := by
  rcases okEnd_cases h with rfl | rfl | rfl | rfl | rfl | hd
  · decide
  · decide
  · decide
  · decide
  · decide
  · obtain ⟨h1, h2, h3, h4, -⟩ := digit_cases hd
    exact qc_of_not_smart h1 h2 h3 h4

theorem okEnd_not_ws {c : Char} (h : okEnd c = true) : pyIsSpace c = false := by
  rcases okEnd_cases h with rfl | rfl | rfl | rfl | rfl | hd
  · decide
  · decide
  · decide
  · decide
  · decide
  · exact (digit_cases hd).2.2.2.2.2.2.2.2

theorem okEnd_not_punct {c : Char} (h : okEnd c = true) :
    (c = '.' || c = ',' || c = ';') = false := by
  rcases okEnd_cases h with rfl | rfl | rfl | rfl | rfl | hd
  · decide
  · decide
  · decide
  · decide
  · decide
  · obtain ⟨-, -, -, -, -, h6, h7, h8, -⟩ := digit_cases hd
    simp [h6, h7, h8]

theorem map_id_of_forall {f : Char → Char} :
    ∀ {l : List Char}, (∀ c ∈ l, f c = c) → l.map f = l := by
  intro l h
  induction l with
  | nil => rfl
  | cons c t ih => simp [h c (by simp), ih fun d hd => h d (by simp [hd])]

theorem wsOnly_normQuotes {w : List Char} (hw : WsOnly w) : normQuotes w = w :=
  map_id_of_forall fun c hc => qc_ws (hw c hc)

theorem dropWhile_append_all {p : Char → Bool} {a b : List Char}
    (ha : ∀ c ∈ a, p c = true) : (a ++ b).dropWhile p = b.dropWhile p := by
  induction a with
  | nil => rfl
  | cons c t ih =>
    simp only [List.cons_append, List.dropWhile_cons, ha c (by simp)]
    exact ih fun d hd => ha d (by simp [hd])

theorem dropWhile_cons_of_neg {p : Char → Bool} {c : Char} {t : List Char}
    (hc : p c = false) : (c :: t).dropWhile p = c :: t := by
  simp [List.dropWhile_cons, hc]

/-- `puncFix` is inert on a text whose last character is not `}`. -/
theorem puncFix_of_getLast {cs : List Char} {c : Char} (hlast : cs.getLast? = some c)
    (hne : c ≠ '}') : puncFix cs = cs := by
  have hrev : cs.reverse.head? = some c := by rw [List.head?_reverse]; exact hlast
  rcases hr : cs.reverse with _ | ⟨c0, t⟩
  · rw [hr] at hrev; simp at hrev
  · rw [hr] at hrev
    have hc0 : c0 = c := by simpa using hrev
    subst hc0
    unfold puncFix
    rw [hr]
    split
    · rename_i r heq
      injection heq with h1 h2
      exact absurd h1 hne
    · rfl

/-- The last member of an object decomposes as leading text, a value whose
final character is a value-end character, and trailing whitespace. -/
theorem jmember_tail {k : String} {v : Json} {cs : List Char} (h : JMember k v cs) :
    ∃ a vv w, cs = a ++ vv ++ w ∧ WsOnly w ∧ vv ≠ [] ∧
      ∃ c, vv.getLast? = some c ∧ okEnd c = true := by
  cases h with
  | mk w1 k body w2 v ecs hw1 hk hw2 he =>
    cases he with
    | mk ew1 v vcs ew2 hew1 hv hew2 =>
      obtain ⟨c, hlast, hok⟩ := jparse_last hv
      obtain ⟨c0, r0, hvcs, -⟩ := jparse_head hv
      refine ⟨w1 ++ '"' :: body ++ '"' :: w2 ++ ':' :: ew1, vcs, ew2, ?_, hew2,
        by simp [hvcs], c, hlast, hok⟩
      simp

theorem jmembers_tail (n : ℕ) : ∀ {ms : JsonMembers} {cs : List Char},
    cs.length ≤ n → JMembers ms cs →
    ∃ a vv w, cs = a ++ vv ++ w ∧ WsOnly w ∧ vv ≠ [] ∧
      ∃ c, vv.getLast? = some c ∧ okEnd c = true := by
  induction n with
  | zero =>
    intro ms cs hlen h
    cases h with
    | one k v cs h1 => exact jmember_tail h1
    | more k v cs1 ms2 cs2 h1 hs => simp at hlen
  | succ n ih =>
    intro ms cs hlen h
    cases h with
    | one k v cs h1 => exact jmember_tail h1
    | more k v cs1 ms2 cs2 h1 hs =>
      have hlen2 : cs2.length ≤ n := by
        simp only [List.length_append, List.length_cons] at hlen
        omega
      obtain ⟨a, vv, w, hcs2, hw, hvv, hc⟩ := ih hlen2 hs
      exact ⟨cs1 ++ ',' :: a, vv, w, by simp [hcs2], hw, hvv, hc⟩

/-- `getLast?` through quote normalisation. -/
theorem getLast?_normQuotes {v : List Char} {c : Char} (h : v.getLast? = some c) :
    (normQuotes v).getLast? = some (qc c) := by
  rw [← List.head?_reverse] at h
  rcases hr : v.reverse with _ | ⟨c0, t⟩
  · rw [hr] at h; simp at h
  · rw [hr] at h
    have : c0 = c := by simpa using h
    subst this
    rw [← List.head?_reverse]
    unfold normQuotes
    rw [← List.map_reverse, hr]
    rfl

theorem normQuotes_append (a b : List Char) :
    normQuotes (a ++ b) = normQuotes a ++ normQuotes b := by
  simp [normQuotes]

theorem normQuotes_cons (c : Char) (l : List Char) :
    normQuotes (c :: l) = qc c :: normQuotes l := rfl


/-- A list ending in `c` splits off that last character. -/
theorem getLast?_decomp {l : List Char} {c : Char} (h : l.getLast? = some c) :
    ∃ u, l = u ++ [c] := by
  have h2 : l.reverse.head? = some c := by rw [List.head?_reverse]; exact h
  rcases hr : l.reverse with _ | ⟨c0, t⟩
  · rw [hr] at h2; simp at h2
  · rw [hr] at h2
    have hc0 : c0 = c := by simpa using h2
    refine ⟨t.reverse, ?_⟩
    have hl := congrArg List.reverse hr
    simpa [hc0] using hl

/-- `puncFix` leaves the quote-normalisation of any parsed JSON value
unchanged: such a text never ends with punctuation-whitespace-brace. -/
theorem puncFix_normQuotes_jparse {j : Json} {v : List Char} (h : JParse j v) :
    puncFix (normQuotes v) = normQuotes v := by
  have braceCase : ∀ inner : List Char,
      ((∃ p rest, inner.reverse.dropWhile pyIsSpace = p :: rest ∧
          (p = '.' || p = ',' || p = ';') = false) ∨
        inner.reverse.dropWhile pyIsSpace = []) →
      puncFix (inner ++ ['}']) = inner ++ ['}'] := by
    intro inner hend
    have hrev : (inner ++ ['}']).reverse = '}' :: inner.reverse := by simp
    unfold puncFix
    rw [hrev]
    split
    · rename_i r heq
      obtain rfl : inner.reverse = r := by injection heq
      split
      · rename_i p2 rest2 hdrop
        rcases hend with ⟨p, rest, he, hp⟩ | he
        · rw [he] at hdrop
          injection hdrop with hp2 hrest2
          subst hp2
          simp [hp]
        · rw [he] at hdrop
          cases hdrop
      · rfl
    · rfl
  cases h with
  | str s body hb =>
    have hlast : (normQuotes (('"' :: body) ++ ['"'])).getLast? = some '"' := by
      rw [normQuotes_append, List.getLast?_append_of_ne_nil _ (by simp [normQuotes])]
      rfl
    exact puncFix_of_getLast hlast (by decide)
  | num s hn =>
    obtain ⟨c, hlast, hdig⟩ := numOK_last hn
    obtain ⟨h1, h2, h3, h4, h5, -⟩ := digit_cases hdig
    have hlast2 : (normQuotes s.data).getLast? = some c := by
      rw [getLast?_normQuotes hlast, qc_of_not_smart h1 h2 h3 h4]
    exact puncFix_of_getLast hlast2 h5
  | true_lit => decide
  | false_lit => decide
  | null_lit => decide
  | arrNil w hw =>
    have hlast : (normQuotes (('[' :: w) ++ [']'])).getLast? = some ']' := by
      rw [normQuotes_append, List.getLast?_append_of_ne_nil _ (by simp [normQuotes])]
      rfl
    exact puncFix_of_getLast hlast (by decide)
  | arrCons es cs2 h2 =>
    have hlast : (normQuotes (('[' :: cs2) ++ [']'])).getLast? = some ']' := by
      rw [normQuotes_append, List.getLast?_append_of_ne_nil _ (by simp [normQuotes])]
      rfl
    exact puncFix_of_getLast hlast (by decide)
  | objNil w hw =>
    have hmap : normQuotes (('{' :: w) ++ ['}']) = ('{' :: w) ++ ['}'] := by
      rw [normQuotes_append, normQuotes_cons, wsOnly_normQuotes hw]
      rfl
    rw [hmap]
    refine braceCase ('{' :: w) (Or.inl ⟨'{', [], ?_, by decide⟩)
    rw [List.reverse_cons,
      dropWhile_append_all fun c hc => jsonWs_pyIsSpace (hw c (by simpa using hc))]
    rfl
  | objCons ms cs2 h2 =>
    obtain ⟨a, vv, w, hcs2, hw, hvvne, c, hlast, hok⟩ :=
      jmembers_tail cs2.length (le_refl _) h2
    have hmap : normQuotes (('{' :: cs2) ++ ['}']) =
        ('{' :: normQuotes cs2) ++ ['}'] := by
      rw [normQuotes_append, normQuotes_cons]
      rfl
    rw [hmap]
    obtain ⟨u, rfl⟩ := getLast?_decomp hlast
    have hqc : qc c = c := okEnd_qc hok
    have hmw : normQuotes w = w := wsOnly_normQuotes hw
    have hrev2 : ('{' :: normQuotes cs2).reverse =
        w.reverse ++ (c :: ((normQuotes u).reverse ++ ((normQuotes a).reverse ++ ['{']))) := by
      rw [hcs2, normQuotes_append, normQuotes_append, normQuotes_append, hmw,
        show normQuotes [c] = [c] from by simp [normQuotes, hqc]]
      simp [List.reverse_append]
    refine braceCase ('{' :: normQuotes cs2)
      (Or.inl ⟨c, (normQuotes u).reverse ++ ((normQuotes a).reverse ++ ['{']), ?_,
        okEnd_not_punct hok⟩)
    rw [hrev2,
      dropWhile_append_all fun d hd => jsonWs_pyIsSpace (hw d (List.mem_reverse.mp hd))]
    exact dropWhile_cons_of_neg (okEnd_not_ws hok)


/-! ### Strip, fence, and quote steps are inert on normalised valid JSON -/

theorem startOK_cases {c : Char} (h : startOK c = true) :
    c = '{' ∨ c = '[' ∨ c = '"' ∨ c = '-' ∨ c = 't' ∨ c = 'f' ∨ c = 'n' ∨
      c.isDigit = true := by
  simp only [startOK, Bool.or_eq_true, decide_eq_true_eq] at h
  tauto

theorem startOK_qc {c : Char} (h : startOK c = true) : qc c = c := by
  rcases startOK_cases h with rfl | rfl | rfl | rfl | rfl | rfl | rfl | hd
  · decide
  · decide
  · decide
  · decide
  · decide
  · decide
  · decide
  · obtain ⟨h1, h2, h3, h4, -⟩ := digit_cases hd
    exact qc_of_not_smart h1 h2 h3 h4

theorem startOK_not_ws {c : Char} (h : startOK c = true) : pyIsSpace c = false := by
  rcases startOK_cases h with rfl | rfl | rfl | rfl | rfl | rfl | rfl | hd
  · decide
  · decide
  · decide
  · decide
  · decide
  · decide
  · decide
  · exact (digit_cases hd).2.2.2.2.2.2.2.2

theorem startOK_ne_backtick {c : Char} (h : startOK c = true) : c ≠ '\x60' := by
  rcases startOK_cases h with rfl | rfl | rfl | rfl | rfl | rfl | rfl | hd
  · decide
  · decide
  · decide
  · decide
  · decide
  · decide
  · decide
  · rintro rfl
    exact absurd (digit_val hd) (by decide)

theorem dropTrailWhile_append {p : Char → Bool} {a b : List Char}
    (hb : ∀ c ∈ b, p c = true) : dropTrailWhile p (a ++ b) = dropTrailWhile p a := by
  unfold dropTrailWhile
  rw [List.reverse_append, dropWhile_append_all fun c hc => hb c (List.mem_reverse.mp hc)]

theorem dropTrailWhile_of_last {p : Char → Bool} {v u : List Char} {cl : Char}
    (hv : v = u ++ [cl]) (hcl : p cl = false) : dropTrailWhile p v = v := by
  subst hv
  unfold dropTrailWhile
  rw [List.reverse_append, show (([cl] : List Char).reverse ++ u.reverse) =
    cl :: u.reverse from rfl, dropWhile_cons_of_neg hcl]
  simp

/-- Python strip of whitespace padding around a text with non-space ends. -/
theorem pyStripChars_of_shape {w1 v w2 : List Char}
    (hw1 : ∀ c ∈ w1, pyIsSpace c = true) (hw2 : ∀ c ∈ w2, pyIsSpace c = true)
    (hhead : ∃ c r, v = c :: r ∧ pyIsSpace c = false)
    (hlast : ∃ c, v.getLast? = some c ∧ pyIsSpace c = false) :
    pyStripChars (w1 ++ (v ++ w2)) = v := by
  obtain ⟨ch, r, hvh, hch⟩ := hhead
  obtain ⟨cl, hcl, hclw⟩ := hlast
  obtain ⟨u, hu⟩ := getLast?_decomp hcl
  unfold pyStripChars
  rw [dropWhile_append_all hw1,
    show v ++ w2 = ch :: (r ++ w2) from by rw [hvh]; simp,
    dropWhile_cons_of_neg hch,
    show ch :: (r ++ w2) = v ++ w2 from by rw [hvh]; simp,
    dropTrailWhile_append hw2]
  exact dropTrailWhile_of_last hu hclw

theorem pyStripChars_id {v : List Char}
    (hhead : ∃ c r, v = c :: r ∧ pyIsSpace c = false)
    (hlast : ∃ c, v.getLast? = some c ∧ pyIsSpace c = false) :
    pyStripChars v = v := by
  have h := @pyStripChars_of_shape [] v [] (by simp) (by simp) hhead hlast
  simpa using h

/-- The fence-removal step is inert on text not starting with a backtick. -/
theorem fenceStrip_of_head_ne {c : Char} {t : List Char} (hc : c ≠ '\x60') :
    fenceStrip (c :: t) = c :: t := by
  have h7 : ("```json".data.isPrefixOf (c :: t)) = false := by
    rw [show "```json".data = '\x60' :: "``json".data from rfl]
    simp only [List.isPrefixOf, Bool.and_eq_false_iff]
    left
    simpa using Ne.symm hc
  have h3 : ("```".data.isPrefixOf (c :: t)) = false := by
    rw [show "```".data = '\x60' :: "``".data from rfl]
    simp only [List.isPrefixOf, Bool.and_eq_false_iff]
    left
    simpa using Ne.symm hc
  unfold fenceStrip
  simp [h7, h3]

theorem escSingles_id {cs : List Char} (h : ∀ c ∈ cs, c ≠ '\'') :
    escSingles cs = cs := by
  induction cs with
  | nil => rfl
  | cons c t ih =>
    unfold escSingles
    rw [if_neg (by simpa using h c (by simp)), ih fun d hd => h d (by simp [hd])]

/-- The double-quote escaping step is inert on apostrophe-free text. -/
theorem dquoteFix_no_squote : ∀ {cs : List Char}, (∀ c ∈ cs, c ≠ '\'') →
    (dquoteFix cs Option.none = cs ∧
      ∀ buf, (∀ c ∈ buf, c ≠ '\'') →
        dquoteFix cs (some buf) = '"' :: (buf.reverse ++ cs)) := by
  intro cs
  induction cs with
  | nil =>
    intro h
    refine ⟨rfl, fun buf hbuf => ?_⟩
    unfold dquoteFix
    simp
  | cons c t ih =>
    intro h
    have ht := ih fun d hd => h d (by simp [hd])
    constructor
    · unfold dquoteFix
      by_cases hc : c = '"'
      · subst hc
        rw [if_pos rfl, (ht.2 [] (by simp))]
        simp
      · rw [if_neg hc, ht.1]
    · intro buf hbuf
      unfold dquoteFix
      by_cases hc : c = '"'
      · subst hc
        rw [if_pos rfl, escSingles_id fun d hd => hbuf d (by
          simpa using List.mem_reverse.mp hd), ht.1]
      · rw [if_neg hc,
          ht.2 (c :: buf) (by
            intro d hd
            rcases List.mem_cons.mp hd with rfl | hd
            · exact h d (by simp)
            · exact hbuf d hd)]
        simp

/-- The single-quote conversion step is inert on apostrophe-free text. -/
theorem squoteFix_no_squote {cs : List Char} (h : ∀ c ∈ cs, c ≠ '\'') :
    squoteFix cs Option.none = cs := by
  induction cs with
  | nil => rfl
  | cons c t ih =>
    unfold squoteFix
    rw [if_neg (h c (by simp)), ih fun d hd => h d (by simp [hd])]


/-! ### C3: idempotence of the sanitizer -/

theorem qc_not_smart_out (c : Char) :
    qc c ≠ '’' ∧ qc c ≠ '‘' ∧ qc c ≠ '“' ∧ qc c ≠ '”' := by
  unfold qc
  split
  · exact ⟨by decide, by decide, by decide, by decide⟩
  · split
    · exact ⟨by decide, by decide, by decide, by decide⟩
    · rename_i h1 h2
      simp only [Bool.or_eq_true, decide_eq_true_eq, not_or] at h1 h2
      exact ⟨h1.1, h1.2, h2.1, h2.2⟩

theorem qc_ne_squote {c : Char} (h1 : c ≠ '\'') (h2 : c ≠ '’') (h3 : c ≠ '‘') :
    qc c ≠ '\'' := by
  unfold qc
  split
  · rename_i hcond
    simp only [Bool.or_eq_true, decide_eq_true_eq] at hcond
    rcases hcond with rfl | rfl
    · exact absurd rfl h2
    · exact absurd rfl h3
  · split
    · decide
    · exact h1

theorem qc_idem (c : Char) : qc (qc c) = qc c := by
  obtain ⟨h1, h2, h3, h4⟩ := qc_not_smart_out c
  exact qc_of_not_smart h1 h2 h3 h4

theorem normQuotes_idem (v : List Char) : normQuotes (normQuotes v) = normQuotes v := by
  unfold normQuotes
  rw [List.map_map]
  exact List.map_congr_left fun c _ => qc_idem c

/-- C3 as stated is false: on the already-strict JSON `{"a": "b'c"}` the
sanitizer escapes the apostrophe inside the double-quoted string (yielding
the invalid `\'`), and a second pass escapes the inserted backslash again,
so `clean(clean x)` differs from `clean x`. -/
theorem c3_clean_idempotent_counterexample :
    ValidJson "\x7b\"a\": \"b'c\"\x7d" ∧
      clean_json_response (clean_json_response "\x7b\"a\": \"b'c\"\x7d") ≠
        clean_json_response "\x7b\"a\": \"b'c\"\x7d" := by
  constructor
  · have hbody : JStrBody "b'c".data ['b', '\'', 'c'] :=
      JStrBody.plain 'b' _ _ (by decide) (by decide)
        (JStrBody.plain '\'' _ _ (by decide) (by decide)
          (JStrBody.plain 'c' _ _ (by decide) (by decide) JStrBody.nil))
    have hkey : JStrBody "a".data ['a'] :=
      JStrBody.plain 'a' _ _ (by decide) (by decide) JStrBody.nil
    have hval : JParse (.str "b'c") ['"', 'b', '\'', 'c', '"'] :=
      JParse.str "b'c" ['b', '\'', 'c'] hbody
    have helem : JElement (.str "b'c") ([' '] ++ (['"', 'b', '\'', 'c', '"'] ++ [])) :=
      JElement.mk [' '] _ _ [] (by simp [WsOnly, jsonWs]) hval (by simp [WsOnly])
    have hmem : JMember "a" (.str "b'c")
        ([] ++ '"' :: ['a'] ++ '"' :: [] ++ ':' :: ([' '] ++ (['"', 'b', '\'', 'c', '"'] ++ []))) :=
      JMember.mk [] "a" ['a'] [] _ _ (by simp [WsOnly]) hkey (by simp [WsOnly]) helem
    have hobj : JParse (.obj (.cons "a" (.str "b'c") .nil))
        ('{' :: ['"', 'a', '"', ':', ' ', '"', 'b', '\'', 'c', '"'] ++ ['}']) :=
      JParse.objCons _ _ (JMembers.one _ _ _ hmem)
    exact ⟨.obj (.cons "a" (.str "b'c") .nil), [],
      ['{', '"', 'a', '"', ':', ' ', '"', 'b', '\'', 'c', '"', '}'], [],
      by decide, by simp [WsOnly], by simp [WsOnly], hobj⟩
  · decide

/-- C3 amended: `clean_json_response` is idempotent on every string that
parses as valid JSON and contains no ASCII apostrophe and no typographic
single quotes (`'`, `’`, `‘`) — exactly the characters the counterexample
shows are re-escaped on the second pass. -/
theorem c3_clean_idempotent_amended (x : String) (hv : ValidJson x)
    (hq : ∀ c ∈ x.data, c ≠ '\'' ∧ c ≠ '’' ∧ c ≠ '‘') :
    clean_json_response (clean_json_response x) = clean_json_response x := by
  obtain ⟨j, w1, v, w2, hx, hw1, hw2, hp⟩ := hv
  obtain ⟨ch, rh, hvh, hsh⟩ := jparse_head hp
  obtain ⟨cl, hvl, hsl⟩ := jparse_last hp
  have hvmem : ∀ c ∈ v, c ∈ x.data := by
    intro c hc
    rw [hx]
    simp [hc]
  have hznos : ∀ c ∈ normQuotes v, c ≠ '\'' := by
    intro c hc
    obtain ⟨d, hd, rfl⟩ := List.mem_map.mp hc
    obtain ⟨hd1, hd2, hd3⟩ := hq d (hvmem d hd)
    exact qc_ne_squote hd1 hd2 hd3
  have hqch : qc ch = ch := startOK_qc hsh
  have hzh2 : normQuotes v = ch :: normQuotes rh := by
    rw [hvh, normQuotes_cons, hqch]
  have hzlast : (normQuotes v).getLast? = some cl := by
    rw [getLast?_normQuotes hvl, okEnd_qc hsl]
  have pass : ∀ y yv : List Char, pyStripChars y = yv → normQuotes yv = normQuotes v →
      cleanChars y = normQuotes v := by
    intro y yv hy hnorm
    unfold cleanChars
    rw [hy, hnorm, hzh2, fenceStrip_of_head_ne (startOK_ne_backtick hsh), ← hzh2,
      puncFix_normQuotes_jparse hp, (dquoteFix_no_squote hznos).1,
      squoteFix_no_squote hznos]
  have h1 : cleanChars x.data = normQuotes v := by
    apply pass x.data v _ rfl
    rw [hx, show w1 ++ v ++ w2 = w1 ++ (v ++ w2) from by simp]
    exact pyStripChars_of_shape (fun c hc => jsonWs_pyIsSpace (hw1 c hc))
      (fun c hc => jsonWs_pyIsSpace (hw2 c hc))
      ⟨ch, rh, hvh, startOK_not_ws hsh⟩ ⟨cl, hvl, okEnd_not_ws hsl⟩
  have h2 : cleanChars (normQuotes v) = normQuotes v := by
    apply pass (normQuotes v) (normQuotes v) _ (normQuotes_idem v)
    exact pyStripChars_id ⟨ch, normQuotes rh, hzh2, startOK_not_ws hsh⟩
      ⟨cl, hzlast, okEnd_not_ws hsl⟩
  show (⟨cleanChars (⟨cleanChars x.data⟩ : String).data⟩ : String) = ⟨cleanChars x.data⟩
  rw [show (⟨cleanChars x.data⟩ : String).data = cleanChars x.data from rfl, h1, h2]

theorem c3_clean_idempotent_amended_witness :
    clean_json_response (clean_json_response "{}") = clean_json_response "{}" :=
  c3_clean_idempotent_amended "{}"
    ⟨.obj .nil, [], ['{', '}'], [], by decide, by simp [WsOnly], by simp [WsOnly],
      JParse.objNil [] (by simp [WsOnly])⟩
    (by decide)


/-! ### C8: single-quoted rendering, fencing, and the round trip -/

/-- String contents for which naive quote-swapping is faithful: no quote
characters of any kind and no backslash. -/
def plainChar (c : Char) : Prop :=
  c ≠ '"' ∧ c ≠ '\'' ∧ c ≠ '\\' ∧ c ≠ '’' ∧ c ≠ '‘' ∧ c ≠ '“' ∧ c ≠ '”'

/-- All characters of a string are plain. -/
def cleanStr (s : String) : Prop :=
  ∀ c ∈ s.data, plainChar c

mutual
/-- Well-formedness of a JSON value for the round-trip claim: strings are
plain and numerals well-formed. -/
def jsonOK : Json → Prop
  | .str s => cleanStr s
  | .num d => numOK d.data = true
  | .boolean _ => True
  | .null => True
  | .arr es => jsonListOK es
  | .obj ms => jsonMembersOK ms
/-- `jsonOK` over array elements. -/
def jsonListOK : JsonList → Prop
  | .nil => True
  | .cons j t => jsonOK j ∧ jsonListOK t
/-- `jsonOK` over object members. -/
def jsonMembersOK : JsonMembers → Prop
  | .nil => True
  | .cons k v t => cleanStr k ∧ jsonOK v ∧ jsonMembersOK t
end

mutual
/-- Compact rendering of a JSON value with *single-quoted* string
literals (the "rewritten with single quotes" input of the claim). -/
def renderSQ : Json → List Char
  | .str s => '\'' :: s.data ++ ['\'']
  | .num d => d.data
  | .boolean true => ['t', 'r', 'u', 'e']
  | .boolean false => ['f', 'a', 'l', 's', 'e']
  | .null => ['n', 'u', 'l', 'l']
  | .arr es => '[' :: renderSQList es ++ [']']
  | .obj ms => '{' :: renderSQMembers ms ++ ['}']
/-- Comma-separated single-quoted rendering of array elements. -/
def renderSQList : JsonList → List Char
  | .nil => []
  | .cons j .nil => renderSQ j
  | .cons j (.cons j2 t) => renderSQ j ++ ',' :: renderSQList (.cons j2 t)
/-- Comma-separated single-quoted rendering of object members. -/
def renderSQMembers : JsonMembers → List Char
  | .nil => []
  | .cons k v .nil => '\'' :: k.data ++ '\'' :: ':' :: renderSQ v
  | .cons k v (.cons k2 v2 t) =>
    ('\'' :: k.data ++ '\'' :: ':' :: renderSQ v) ++ ',' :: renderSQMembers (.cons k2 v2 t)
end

mutual
/-- Canonical strict (double-quoted) rendering of a JSON value. -/
def renderDQ : Json → List Char
  | .str s => '"' :: s.data ++ ['"']
  | .num d => d.data
  | .boolean true => ['t', 'r', 'u', 'e']
  | .boolean false => ['f', 'a', 'l', 's', 'e']
  | .null => ['n', 'u', 'l', 'l']
  | .arr es => '[' :: renderDQList es ++ [']']
  | .obj ms => '{' :: renderDQMembers ms ++ ['}']
/-- Comma-separated strict rendering of array elements. -/
def renderDQList : JsonList → List Char
  | .nil => []
  | .cons j .nil => renderDQ j
  | .cons j (.cons j2 t) => renderDQ j ++ ',' :: renderDQList (.cons j2 t)
/-- Comma-separated strict rendering of object members. -/
def renderDQMembers : JsonMembers → List Char
  | .nil => []
  | .cons k v .nil => '"' :: k.data ++ '"' :: ':' :: renderDQ v
  | .cons k v (.cons k2 v2 t) =>
    ('"' :: k.data ++ '"' :: ':' :: renderDQ v) ++ ',' :: renderDQMembers (.cons k2 v2 t)
end

/-- Wrapping a payload in a ```` ```json ```` Markdown code fence. -/
def fenceWrap (s : String) : String :=
  "```json\n" ++ s ++ "\n```"


theorem squote_skip {a : List Char} (ha : ∀ c ∈ a, c ≠ '\'') :
    ∀ t, squoteFix (a ++ t) Option.none = a ++ squoteFix t Option.none := by
  induction a with
  | nil => intro t; simp
  | cons c r ih =>
    intro t
    have hc : c ≠ '\'' := ha c (by simp)
    have step : squoteFix ((c :: r) ++ t) Option.none =
        (if c = '\'' then squoteFix (r ++ t) (some [])
         else c :: squoteFix (r ++ t) Option.none) := rfl
    rw [step, if_neg hc, ih (fun d hd => ha d (by simp [hd])) t]
    rfl

theorem squote_inside {content : List Char} (hc : ∀ c ∈ content, c ≠ '\'') :
    ∀ buf t, squoteFix (content ++ '\'' :: t) (some buf) =
      '"' :: ((buf.reverse ++ content) ++ '"' :: squoteFix t Option.none) := by
  induction content with
  | nil =>
    intro buf t
    have step : squoteFix ([] ++ '\'' :: t) (some buf) =
        (if ('\'' : Char) = '\'' then
          '"' :: (buf.reverse ++ '"' :: squoteFix t Option.none)
         else squoteFix t (some ('\'' :: buf))) := rfl
    rw [step, if_pos rfl]
    simp
  | cons c r ih =>
    intro buf t
    have hcne : c ≠ '\'' := hc c (by simp)
    have step : squoteFix ((c :: r) ++ '\'' :: t) (some buf) =
        (if c = '\'' then
          '"' :: (buf.reverse ++ '"' :: squoteFix (r ++ '\'' :: t) Option.none)
         else squoteFix (r ++ '\'' :: t) (some (c :: buf))) := rfl
    rw [step, if_neg hcne, ih (fun d hd => hc d (by simp [hd])) (c :: buf) t]
    simp

/-- Converting one complete single-quoted literal. -/
theorem squote_literal {content : List Char} (hc : ∀ c ∈ content, c ≠ '\'') (t : List Char) :
    squoteFix (('\'' :: content) ++ ('\'' :: t)) Option.none =
      ('"' :: content) ++ ('"' :: squoteFix t Option.none) := by
  have step : squoteFix (('\'' :: content) ++ ('\'' :: t)) Option.none =
      (if ('\'' : Char) = '\'' then squoteFix (content ++ '\'' :: t) (some [])
       else '\'' :: squoteFix (content ++ '\'' :: t) Option.none) := rfl
  rw [step, if_pos rfl, squote_inside hc [] t]
  simp


theorem num_no_squote {cs : List Char} (h : numOK cs = true) : ∀ c ∈ cs, c ≠ '\'' := by
  intro c hc
  rcases numOK_alphabet h c hc with hd | rfl | rfl | rfl | rfl | rfl
  · rintro rfl
    exact absurd hd (by decide)
  · decide
  · decide
  · decide
  · decide
  · decide

mutual
/-- The single-quote conversion step turns the single-quoted rendering
into the strict rendering, for any continuation. -/
theorem render_swap : ∀ (j : Json), jsonOK j → ∀ t,
    squoteFix (renderSQ j ++ t) Option.none = renderDQ j ++ squoteFix t Option.none
  | .str s, hok, t => by
    have hc : ∀ c ∈ s.data, c ≠ '\'' := fun c hcm => (hok c hcm).2.1
    rw [show renderSQ (.str s) = ('\'' :: s.data) ++ ['\''] from rfl,
      show renderDQ (.str s) = ('"' :: s.data) ++ ['"'] from rfl, List.append_assoc,
      show (['\''] : List Char) ++ t = '\'' :: t from rfl, squote_literal hc t]
    simp
  | .num d, hok, t => by
    rw [show renderSQ (.num d) = d.data from rfl, show renderDQ (.num d) = d.data from rfl,
      squote_skip (num_no_squote hok) t]
  | .boolean true, _, t => by
    rw [show renderSQ (.boolean true) = ['t', 'r', 'u', 'e'] from rfl,
      show renderDQ (.boolean true) = ['t', 'r', 'u', 'e'] from rfl,
      squote_skip (by decide) t]
  | .boolean false, _, t => by
    rw [show renderSQ (.boolean false) = ['f', 'a', 'l', 's', 'e'] from rfl,
      show renderDQ (.boolean false) = ['f', 'a', 'l', 's', 'e'] from rfl,
      squote_skip (by decide) t]
  | .null, _, t => by
    rw [show renderSQ .null = ['n', 'u', 'l', 'l'] from rfl,
      show renderDQ .null = ['n', 'u', 'l', 'l'] from rfl,
      squote_skip (by decide) t]
  | .arr es, hok, t => by
    rw [show renderSQ (.arr es) ++ t = ['['] ++ (renderSQList es ++ ([']'] ++ t)) from by
        rw [show renderSQ (.arr es) = ('[' :: renderSQList es) ++ [']'] from rfl]; simp,
      squote_skip (by decide), render_swapList es hok ([']'] ++ t),
      squote_skip (by decide) t,
      show renderDQ (.arr es) = ('[' :: renderDQList es) ++ [']'] from rfl]
    simp
  | .obj ms, hok, t => by
    rw [show renderSQ (.obj ms) ++ t = ['{'] ++ (renderSQMembers ms ++ (['}'] ++ t)) from by
        rw [show renderSQ (.obj ms) = ('{' :: renderSQMembers ms) ++ ['}'] from rfl]; simp,
      squote_skip (by decide), render_swapMembers ms hok (['}'] ++ t),
      squote_skip (by decide) t,
      show renderDQ (.obj ms) = ('{' :: renderDQMembers ms) ++ ['}'] from rfl]
    simp

/-- `render_swap` over array elements. -/
theorem render_swapList : ∀ (es : JsonList), jsonListOK es → ∀ t,
    squoteFix (renderSQList es ++ t) Option.none =
      renderDQList es ++ squoteFix t Option.none
  | .nil, _, t => by
    rw [show renderSQList .nil = [] from rfl, show renderDQList .nil = [] from rfl]
    simp
  | .cons j .nil, hok, t => by
    rw [show renderSQList (.cons j .nil) = renderSQ j from rfl,
      show renderDQList (.cons j .nil) = renderDQ j from rfl]
    exact render_swap j hok.1 t
  | .cons j (.cons j2 t2), hok, t => by
    rw [show renderSQList (.cons j (.cons j2 t2)) ++ t =
        renderSQ j ++ ([','] ++ (renderSQList (.cons j2 t2) ++ t)) from by
        rw [show renderSQList (.cons j (.cons j2 t2)) =
          renderSQ j ++ ',' :: renderSQList (.cons j2 t2) from rfl]; simp,
      render_swap j hok.1, squote_skip (by decide),
      render_swapList (.cons j2 t2) hok.2 t,
      show renderDQList (.cons j (.cons j2 t2)) =
        renderDQ j ++ ',' :: renderDQList (.cons j2 t2) from rfl]
    simp

/-- `render_swap` over object members. -/
theorem render_swapMembers : ∀ (ms : JsonMembers), jsonMembersOK ms → ∀ t,
    squoteFix (renderSQMembers ms ++ t) Option.none =
      renderDQMembers ms ++ squoteFix t Option.none
  | .nil, _, t => by
    rw [show renderSQMembers .nil = [] from rfl, show renderDQMembers .nil = [] from rfl]
    simp
  | .cons k v .nil, hok, t => by
    have hk : ∀ c ∈ k.data, c ≠ '\'' := fun c hcm => (hok.1 c hcm).2.1
    rw [show renderSQMembers (.cons k v .nil) ++ t =
        ('\'' :: k.data) ++ ('\'' :: ([':'] ++ (renderSQ v ++ t))) from by
        rw [show renderSQMembers (.cons k v .nil) =
          '\'' :: k.data ++ '\'' :: ':' :: renderSQ v from rfl]; simp,
      squote_literal hk, squote_skip (by decide), render_swap v hok.2.1 t,
      show renderDQMembers (.cons k v .nil) =
        '"' :: k.data ++ '"' :: ':' :: renderDQ v from rfl]
    simp
  | .cons k v (.cons k2 v2 t2), hok, t => by
    have hk : ∀ c ∈ k.data, c ≠ '\'' := fun c hcm => (hok.1 c hcm).2.1
    rw [show renderSQMembers (.cons k v (.cons k2 v2 t2)) ++ t =
        ('\'' :: k.data) ++ ('\'' :: ([':'] ++ (renderSQ v ++
          ([','] ++ (renderSQMembers (.cons k2 v2 t2) ++ t))))) from by
        rw [show renderSQMembers (.cons k v (.cons k2 v2 t2)) =
          ('\'' :: k.data ++ '\'' :: ':' :: renderSQ v) ++
            ',' :: renderSQMembers (.cons k2 v2 t2) from rfl]; simp,
      squote_literal hk, squote_skip (by decide), render_swap v hok.2.1,
      squote_skip (by decide), render_swapMembers (.cons k2 v2 t2) hok.2.2 t,
      show renderDQMembers (.cons k v (.cons k2 v2 t2)) =
        ('"' :: k.data ++ '"' :: ':' :: renderDQ v) ++
          ',' :: renderDQMembers (.cons k2 v2 t2) from rfl]
    simp
end


theorem dquoteFix_no_dquote : ∀ {cs : List Char}, (∀ c ∈ cs, c ≠ '"') →
    dquoteFix cs Option.none = cs := by
  intro cs
  induction cs with
  | nil => intro h; rfl
  | cons c t ih =>
    intro h
    have step : dquoteFix (c :: t) Option.none =
        (if c = '"' then dquoteFix t (some [])
         else c :: dquoteFix t Option.none) := rfl
    rw [step, if_neg (h c (by simp)), ih fun d hd => h d (by simp [hd])]

theorem isPrefixOf_self_append (l t : List Char) : l.isPrefixOf (l ++ t) = true := by
  induction l with
  | nil => simp [List.isPrefixOf]
  | cons c r ih => simp [List.isPrefixOf, ih]

theorem isSuffixOf_append_self (l t : List Char) : l.isSuffixOf (t ++ l) = true := by
  unfold List.isSuffixOf
  rw [List.reverse_append]
  exact isPrefixOf_self_append l.reverse t.reverse

theorem dropLastN_append (b t : List Char) : dropLastN t.length (b ++ t) = b := by
  unfold dropLastN
  rw [List.reverse_append, show t.length = t.reverse.length from (List.length_reverse t).symm,
    List.drop_left]
  simp

/-- Inertness of `puncFix` on a brace-terminated text whose character
before the closing brace (across whitespace) is not punctuation. -/
theorem puncFix_brace_ok {inner : List Char}
    (hend : (∃ p rest, inner.reverse.dropWhile pyIsSpace = p :: rest ∧
        (p = '.' || p = ',' || p = ';') = false) ∨
      inner.reverse.dropWhile pyIsSpace = []) :
    puncFix (inner ++ ['}']) = inner ++ ['}'] := by
  have hrev : (inner ++ ['}']).reverse = '}' :: inner.reverse := by simp
  unfold puncFix
  rw [hrev]
  split
  · rename_i r heq
    obtain rfl : inner.reverse = r := by injection heq
    split
    · rename_i p2 rest2 hdrop
      rcases hend with ⟨p, rest, he, hp⟩ | he
      · rw [he] at hdrop
        injection hdrop with hp2 hrest2
        subst hp2
        simp [hp]
      · rw [he] at hdrop
        cases hdrop
    · rfl
  · rfl

/-- Last character of a single-quoted rendering: a closing quote or a
value-end character. -/
theorem renderSQ_last (j : Json) (hok : jsonOK j) :
    ∃ c, (renderSQ j).getLast? = some c ∧ (c = '\'' ∨ okEnd c = true) := by
  cases j with
  | str s =>
    refine ⟨'\'', ?_, Or.inl rfl⟩
    rw [show renderSQ (.str s) = ('\'' :: s.data) ++ ['\''] from rfl,
      List.getLast?_append_of_ne_nil _ (by simp)]
    rfl
  | num d =>
    obtain ⟨c, hlast, hdig⟩ := numOK_last hok
    exact ⟨c, hlast, Or.inr (by simp [okEnd, hdig])⟩
  | boolean b => cases b <;> exact ⟨'e', rfl, Or.inr (by decide)⟩
  | null => exact ⟨'l', rfl, Or.inr (by decide)⟩
  | arr es =>
    refine ⟨']', ?_, Or.inr (by decide)⟩
    rw [show renderSQ (.arr es) = ('[' :: renderSQList es) ++ [']'] from rfl,
      List.getLast?_append_of_ne_nil _ (by simp)]
    rfl
  | obj ms =>
    refine ⟨'}', ?_, Or.inr (by decide)⟩
    rw [show renderSQ (.obj ms) = ('{' :: renderSQMembers ms) ++ ['}'] from rfl,
      List.getLast?_append_of_ne_nil _ (by simp)]
    rfl

/-- The rendering of a nonempty member list ends with the rendering of
its final member's value. -/
theorem renderSQMembers_tail : ∀ (k : String) (v : Json) (tl : JsonMembers),
    jsonMembersOK (.cons k v tl) →
    ∃ a vl, renderSQMembers (.cons k v tl) = a ++ renderSQ vl ∧ jsonOK vl
  | k, v, .nil, hok => by
    refine ⟨'\'' :: k.data ++ ['\'', ':'], v, ?_, hok.2.1⟩
    rw [show renderSQMembers (.cons k v .nil) =
      '\'' :: k.data ++ '\'' :: ':' :: renderSQ v from rfl]
    simp
  | k, v, .cons k2 v2 t2, hok => by
    obtain ⟨a, vl, ha, hvl⟩ := renderSQMembers_tail k2 v2 t2 hok.2.2
    refine ⟨('\'' :: k.data ++ '\'' :: ':' :: renderSQ v) ++ ',' :: a, vl, ?_, hvl⟩
    rw [show renderSQMembers (.cons k v (.cons k2 v2 t2)) =
      ('\'' :: k.data ++ '\'' :: ':' :: renderSQ v) ++
        ',' :: renderSQMembers (.cons k2 v2 t2) from rfl, ha]
    simp


mutual
/-- Characters of the single-quoted rendering: never a double quote, and
fixed by quote normalisation. -/
theorem renderSQ_chars : ∀ (j : Json), jsonOK j → ∀ c ∈ renderSQ j, c ≠ '"' ∧ qc c = c
  | .str s, hok, c, hc => by
    rw [show renderSQ (.str s) = ('\'' :: s.data) ++ ['\''] from rfl] at hc
    simp only [List.mem_append, List.mem_cons, List.mem_singleton,
      List.not_mem_nil, or_false] at hc
    rcases hc with (rfl | hcm) | rfl
    · exact ⟨by decide, by decide⟩
    · obtain ⟨h1, h2, h3, h4, h5, h6, h7⟩ := hok c hcm
      exact ⟨h1, qc_of_not_smart h4 h5 h6 h7⟩
    · exact ⟨by decide, by decide⟩
  | .num d, hok, c, hc => by
    rcases numOK_alphabet hok c hc with hd | rfl | rfl | rfl | rfl | rfl
    · obtain ⟨h1, h2, h3, h4, -⟩ := digit_cases hd
      refine ⟨?_, qc_of_not_smart h1 h2 h3 h4⟩
      rintro rfl
      exact absurd hd (by decide)
    · exact ⟨by decide, by decide⟩
    · exact ⟨by decide, by decide⟩
    · exact ⟨by decide, by decide⟩
    · exact ⟨by decide, by decide⟩
    · exact ⟨by decide, by decide⟩
  | .boolean true, _, c, hc => by
    fin_cases hc <;> exact ⟨by decide, by decide⟩
  | .boolean false, _, c, hc => by
    fin_cases hc <;> exact ⟨by decide, by decide⟩
  | .null, _, c, hc => by
    fin_cases hc <;> exact ⟨by decide, by decide⟩
  | .arr es, hok, c, hc => by
    rw [show renderSQ (.arr es) = ('[' :: renderSQList es) ++ [']'] from rfl] at hc
    simp only [List.mem_append, List.mem_cons, List.mem_singleton,
      List.not_mem_nil, or_false] at hc
    rcases hc with (rfl | hcm) | rfl
    · exact ⟨by decide, by decide⟩
    · exact renderSQList_chars es hok c hcm
    · exact ⟨by decide, by decide⟩
  | .obj ms, hok, c, hc => by
    rw [show renderSQ (.obj ms) = ('{' :: renderSQMembers ms) ++ ['}'] from rfl] at hc
    simp only [List.mem_append, List.mem_cons, List.mem_singleton,
      List.not_mem_nil, or_false] at hc
    rcases hc with (rfl | hcm) | rfl
    · exact ⟨by decide, by decide⟩
    · exact renderSQMembers_chars ms hok c hcm
    · exact ⟨by decide, by decide⟩

/-- `renderSQ_chars` over array elements. -/
theorem renderSQList_chars : ∀ (es : JsonList), jsonListOK es →
    ∀ c ∈ renderSQList es, c ≠ '"' ∧ qc c = c
  | .nil, _, c, hc => by rw [show renderSQList .nil = [] from rfl] at hc; cases hc
  | .cons j .nil, hok, c, hc => by
    rw [show renderSQList (.cons j .nil) = renderSQ j from rfl] at hc
    exact renderSQ_chars j hok.1 c hc
  | .cons j (.cons j2 t2), hok, c, hc => by
    rw [show renderSQList (.cons j (.cons j2 t2)) =
      renderSQ j ++ ',' :: renderSQList (.cons j2 t2) from rfl] at hc
    simp only [List.mem_append, List.mem_cons] at hc
    rcases hc with hcm | rfl | hcm
    · exact renderSQ_chars j hok.1 c hcm
    · exact ⟨by decide, by decide⟩
    · exact renderSQList_chars (.cons j2 t2) hok.2 c hcm

/-- `renderSQ_chars` over object members. -/
theorem renderSQMembers_chars : ∀ (ms : JsonMembers), jsonMembersOK ms →
    ∀ c ∈ renderSQMembers ms, c ≠ '"' ∧ qc c = c
  | .nil, _, c, hc => by rw [show renderSQMembers .nil = [] from rfl] at hc; cases hc
  | .cons k v .nil, hok, c, hc => by
    rw [show renderSQMembers (.cons k v .nil) =
      '\'' :: k.data ++ '\'' :: ':' :: renderSQ v from rfl] at hc
    simp only [List.mem_append, List.mem_cons] at hc
    rcases hc with (rfl | hcm) | rfl | rfl | hcm
    · exact ⟨by decide, by decide⟩
    · obtain ⟨h1, h2, h3, h4, h5, h6, h7⟩ := hok.1 c hcm
      exact ⟨h1, qc_of_not_smart h4 h5 h6 h7⟩
    · exact ⟨by decide, by decide⟩
    · exact ⟨by decide, by decide⟩
    · exact renderSQ_chars v hok.2.1 c hcm
  | .cons k v (.cons k2 v2 t2), hok, c, hc => by
    rw [show renderSQMembers (.cons k v (.cons k2 v2 t2)) =
      ('\'' :: k.data ++ '\'' :: ':' :: renderSQ v) ++
        ',' :: renderSQMembers (.cons k2 v2 t2) from rfl] at hc
    simp only [List.mem_append, List.mem_cons] at hc
    rcases hc with ((rfl | hcm) | rfl | rfl | hcm) | rfl | hcm
    · exact ⟨by decide, by decide⟩
    · obtain ⟨h1, h2, h3, h4, h5, h6, h7⟩ := hok.1 c hcm
      exact ⟨h1, qc_of_not_smart h4 h5 h6 h7⟩
    · exact ⟨by decide, by decide⟩
    · exact ⟨by decide, by decide⟩
    · exact renderSQ_chars v hok.2.1 c hcm
    · exact ⟨by decide, by decide⟩
    · exact renderSQMembers_chars (.cons k2 v2 t2) hok.2.2 c hcm
end


theorem strbody_refl : ∀ {ds : List Char}, (∀ c ∈ ds, c ≠ '"' ∧ c ≠ '\\') →
    JStrBody ds ds := by
  intro ds
  induction ds with
  | nil => intro h; exact JStrBody.nil
  | cons c t ih =>
    intro h
    exact JStrBody.plain c t t (h c (by simp)).1 (h c (by simp)).2
      (ih fun d hd => h d (by simp [hd]))

theorem jelement_of_jparse {j : Json} {cs : List Char} (h : JParse j cs) :
    JElement j cs := by
  have h2 := JElement.mk [] j cs [] (by simp [WsOnly]) h (by simp [WsOnly])
  simpa using h2

theorem jmember_plain {k : String} {v : Json} {cs : List Char} (hk : cleanStr k)
    (he : JElement v cs) : JMember k v ('"' :: k.data ++ '"' :: ':' :: cs) := by
  have h2 := JMember.mk [] k k.data [] v cs (by simp [WsOnly])
    (strbody_refl fun c hc => ⟨(hk c hc).1, (hk c hc).2.2.1⟩) (by simp [WsOnly]) he
  simpa using h2

mutual
/-- The strict rendering of a well-formed value parses back to it. -/
theorem renderDQ_parse : ∀ (j : Json), jsonOK j → JParse j (renderDQ j)
  | .str s, hok =>
    JParse.str s s.data (strbody_refl fun c hc => ⟨(hok c hc).1, (hok c hc).2.2.1⟩)
  | .num d, hok => JParse.num d hok
  | .boolean true, _ => JParse.true_lit
  | .boolean false, _ => JParse.false_lit
  | .null, _ => JParse.null_lit
  | .arr .nil, _ => JParse.arrNil [] (by simp [WsOnly])
  | .arr (.cons j tl), hok => JParse.arrCons _ _ (renderDQList_elems j tl hok)
  | .obj .nil, _ => JParse.objNil [] (by simp [WsOnly])
  | .obj (.cons k v tl), hok => JParse.objCons _ _ (renderDQMembers_parse k v tl hok)
termination_by j _ => sizeOf j

/-- Strict renderings of nonempty element lists parse as element lists. -/
theorem renderDQList_elems : ∀ (j : Json) (tl : JsonList), jsonListOK (.cons j tl) →
    JElems (.cons j tl) (renderDQList (.cons j tl))
  | j, .nil, hok => JElems.one j _ (jelement_of_jparse (renderDQ_parse j hok.1))
  | j, .cons j2 t2, hok =>
    JElems.more j (renderDQ j) (.cons j2 t2) (renderDQList (.cons j2 t2))
      (jelement_of_jparse (renderDQ_parse j hok.1))
      (renderDQList_elems j2 t2 hok.2)
termination_by j tl _ => sizeOf j + sizeOf tl

/-- Strict renderings of nonempty member lists parse as member lists. -/
theorem renderDQMembers_parse : ∀ (k : String) (v : Json) (tl : JsonMembers),
    jsonMembersOK (.cons k v tl) →
    JMembers (.cons k v tl) (renderDQMembers (.cons k v tl))
  | k, v, .nil, hok =>
    JMembers.one _ _ _ (jmember_plain hok.1 (jelement_of_jparse (renderDQ_parse v hok.2.1)))
  | k, v, .cons k2 v2 t2, hok =>
    JMembers.more _ _ _ _ _
      (jmember_plain hok.1 (jelement_of_jparse (renderDQ_parse v hok.2.1)))
      (renderDQMembers_parse k2 v2 t2 hok.2.2)
termination_by k v tl _ => sizeOf v + sizeOf tl
end


/-- The cleaned fence-wrapped single-quoted rendering of an object is its
strict rendering. -/
theorem clean_fenceWrap_renderSQ (ms : JsonMembers) (hok : jsonOK (.obj ms)) :
    cleanChars (fenceWrap ⟨renderSQ (.obj ms)⟩).data = renderDQ (.obj ms) := by
  have hmok : jsonMembersOK ms := hok
  have hW : (fenceWrap ⟨renderSQ (.obj ms)⟩).data =
      ("```json\n".data ++ renderSQ (.obj ms)) ++ "\n```".data := rfl
  have hW2 : (fenceWrap ⟨renderSQ (.obj ms)⟩).data =
      "```json".data ++ (['\n'] ++ (renderSQ (.obj ms) ++ (['\n'] ++ "```".data))) := by
    rw [hW, show "```json\n".data = "```json".data ++ ['\n'] from rfl,
      show "\n```".data = ['\n'] ++ "```".data from rfl]
    simp
  have hS : renderSQ (.obj ms) = ('{' :: renderSQMembers ms) ++ ['}'] := rfl
  have hShead : ∃ c r, renderSQ (.obj ms) = c :: r ∧ pyIsSpace c = false :=
    ⟨'{', renderSQMembers ms ++ ['}'], rfl, by decide⟩
  have hSlast : ∃ c, (renderSQ (.obj ms)).getLast? = some c ∧ pyIsSpace c = false := by
    refine ⟨'}', ?_, by decide⟩
    rw [hS, List.getLast?_append_of_ne_nil _ (by simp)]
    rfl
  -- step 1: strip is inert on the fenced text
  have hWhead : (fenceWrap ⟨renderSQ (.obj ms)⟩).data =
      '\x60' :: ("``json\n".data ++ renderSQ (.obj ms) ++ "\n```".data) := by
    rw [hW]
    rfl
  have hstrip : pyStripChars (fenceWrap ⟨renderSQ (.obj ms)⟩).data =
      (fenceWrap ⟨renderSQ (.obj ms)⟩).data := by
    refine pyStripChars_id ⟨'\x60', _, hWhead, by decide⟩ ⟨'\x60', ?_, by decide⟩
    rw [hW, List.getLast?_append_of_ne_nil _ (by simp)]
    rfl
  -- step 2: no typographic quotes anywhere
  have hq : normQuotes (fenceWrap ⟨renderSQ (.obj ms)⟩).data =
      (fenceWrap ⟨renderSQ (.obj ms)⟩).data := by
    apply map_id_of_forall
    intro c hc
    rw [hW2] at hc
    simp only [List.mem_append, List.mem_cons, List.not_mem_nil, or_false] at hc
    rcases hc with hc | rfl | hc | rfl | hc
    · rcases hc with rfl | rfl | rfl | rfl | rfl | rfl | rfl <;> decide
    · decide
    · exact (renderSQ_chars (.obj ms) hok c hc).2
    · decide
    · rcases hc with rfl | rfl | rfl <;> decide
  -- step 3: the fence is stripped back to the payload
  have hfence : fenceStrip (fenceWrap ⟨renderSQ (.obj ms)⟩).data = renderSQ (.obj ms) := by
    have hc1 : "```json".data.isPrefixOf (fenceWrap ⟨renderSQ (.obj ms)⟩).data = true := by
      rw [hW2]
      exact isPrefixOf_self_append _ _
    have hc2 : "```".data.isSuffixOf (fenceWrap ⟨renderSQ (.obj ms)⟩).data = true := by
      rw [hW2, show "```json".data ++ (['\n'] ++ (renderSQ (.obj ms) ++ (['\n'] ++ "```".data))) =
        ("```json".data ++ (['\n'] ++ (renderSQ (.obj ms) ++ ['\n']))) ++ "```".data from by simp]
      exact isSuffixOf_append_self _ _
    unfold fenceStrip
    rw [if_pos (by rw [hc1, hc2]; rfl)]
    rw [hW2, show (7 : ℕ) = "```json".data.length from rfl, List.drop_left]
    rw [show ['\n'] ++ (renderSQ (.obj ms) ++ (['\n'] ++ "```".data)) =
      ((['\n'] ++ renderSQ (.obj ms)) ++ ['\n']) ++ "```".data from by simp,
      show (3 : ℕ) = "```".data.length from rfl, dropLastN_append]
    rw [show (['\n'] ++ renderSQ (.obj ms)) ++ ['\n'] =
      ['\n'] ++ (renderSQ (.obj ms) ++ ['\n']) from by simp]
    exact pyStripChars_of_shape (by decide) (by decide) hShead hSlast
  -- step 4: no trailing punctuation before the closing brace
  have hpunc : puncFix (renderSQ (.obj ms)) = renderSQ (.obj ms) := by
    rw [hS]
    apply puncFix_brace_ok
    cases ms with
    | nil =>
      left
      exact ⟨'{', [], by decide, by decide⟩
    | cons k v tl =>
      left
      obtain ⟨a, vl, ha, hvl⟩ := renderSQMembers_tail k v tl hmok
      obtain ⟨c, hlast, hc⟩ := renderSQ_last vl hvl
      obtain ⟨u, hu⟩ := getLast?_decomp hlast
      have hnws : pyIsSpace c = false := by
        rcases hc with rfl | hok2
        · decide
        · exact okEnd_not_ws hok2
      refine ⟨c, u.reverse ++ (a.reverse ++ ['{']), ?_, ?_⟩
      · rw [show ('{' :: renderSQMembers (.cons k v tl)).reverse =
          (renderSQMembers (.cons k v tl)).reverse ++ ['{'] from by simp, ha, hu]
        rw [show (a ++ (u ++ [c])).reverse ++ ['{'] =
          c :: (u.reverse ++ (a.reverse ++ ['{'])) from by simp]
        exact dropWhile_cons_of_neg hnws
      · rcases hc with rfl | hok2
        · decide
        · exact okEnd_not_punct hok2
  -- step 5: no double quotes to escape
  have hdq : dquoteFix (renderSQ (.obj ms)) Option.none = renderSQ (.obj ms) :=
    dquoteFix_no_dquote fun c hc => (renderSQ_chars (.obj ms) hok c hc).1
  -- step 6: single-quote conversion yields the strict rendering
  have hsq : squoteFix (renderSQ (.obj ms)) Option.none = renderDQ (.obj ms) := by
    have h := render_swap (.obj ms) hok []
    rw [List.append_nil, show squoteFix ([] : List Char) Option.none = [] from rfl,
      List.append_nil] at h
    exact h
  unfold cleanChars
  rw [hstrip, hq, hfence, hpunc, hdq, hsq]

/-- C8 amended: for every JSON object whose strings (keys and values)
contain no quote characters of any kind and no backslash, and whose
numerals are well-formed, rewriting string literals with single quotes,
wrapping in a ```` ```json ```` fence, cleaning, and parsing reproduces
exactly the original object's key/value pairs. -/
theorem c8_roundtrip_amended (ms : JsonMembers) (hok : jsonOK (.obj ms)) :
    (clean_json_response (fenceWrap ⟨renderSQ (.obj ms)⟩)).data = renderDQ (.obj ms) ∧
    JParse (.obj ms) (renderDQ (.obj ms)) :=
  ⟨clean_fenceWrap_renderSQ ms hok, renderDQ_parse (.obj ms) hok⟩

theorem c8_roundtrip_amended_witness :
    (clean_json_response (fenceWrap ⟨renderSQ (.obj (.cons "a" (.str "x") .nil))⟩)).data =
      renderDQ (.obj (.cons "a" (.str "x") .nil)) ∧
    JParse (.obj (.cons "a" (.str "x") .nil))
      (renderDQ (.obj (.cons "a" (.str "x") .nil))) :=
  c8_roundtrip_amended (.cons "a" (.str "x") .nil)
    (show jsonMembersOK (.cons "a" (.str "x") .nil) from
      ⟨by intro c hc; fin_cases hc; exact ⟨by decide, by decide, by decide, by decide,
        by decide, by decide, by decide⟩,
       by intro c hc; fin_cases hc; exact ⟨by decide, by decide, by decide, by decide,
        by decide, by decide, by decide⟩, trivial⟩)


theorem strbody_mem_keeps {ds body : List Char} (h : JStrBody ds body) :
    '”' ∈ ds → '”' ∈ body := by
  induction h with
  | nil => intro h0; cases h0
  | plain c ds cs hq hb hrec ih =>
    intro h0
    rcases List.mem_cons.mp h0 with rfl | h0
    · exact List.mem_cons_self _ _
    · exact List.mem_cons_of_mem _ (ih h0)
  | esc e c ds cs he hrec ih =>
    intro h0
    rcases List.mem_cons.mp h0 with rfl | h0
    · exfalso
      rcases he with ⟨-, h⟩ | ⟨-, h⟩ | ⟨-, h⟩ | ⟨-, h⟩ | ⟨-, h⟩ | ⟨-, h⟩ | ⟨-, h⟩ | ⟨-, h⟩ <;>
        exact absurd h (by decide)
    · exact List.mem_cons_of_mem _ (List.mem_cons_of_mem _ (ih h0))

theorem jparse_obj_inv {k : String} {v : Json} {tl : JsonMembers} {cs : List Char}
    (h : JParse (.obj (.cons k v tl)) cs) :
    ∃ cs1, cs = '{' :: cs1 ++ ['}'] ∧ JMembers (.cons k v tl) cs1 := by
  cases h with
  | objCons ms cs1 hm => exact ⟨cs1, rfl, hm⟩

theorem jmembers_one_inv {k : String} {v : Json} {cs : List Char}
    (h : JMembers (.cons k v .nil) cs) : JMember k v cs := by
  cases h with
  | one _ _ _ h1 => exact h1
  | more k v cs1 ms2 cs2 h1 hs => cases hs

theorem jmember_inv {k : String} {v : Json} {cs : List Char} (h : JMember k v cs) :
    ∃ w1 body w2 ecs, cs = w1 ++ '"' :: body ++ '"' :: w2 ++ ':' :: ecs ∧
      JStrBody k.data body ∧ JElement v ecs := by
  cases h with
  | mk w1 k body w2 v ecs hw1 hk hw2 he => exact ⟨w1, body, w2, ecs, rfl, hk, he⟩

theorem jelement_inv {v : Json} {cs : List Char} (h : JElement v cs) :
    ∃ w1 vcs w2, cs = w1 ++ vcs ++ w2 ∧ JParse v vcs := by
  cases h with
  | mk w1 j vcs w2 hw1 hp hw2 => exact ⟨w1, vcs, w2, rfl, hp⟩

theorem jparse_str_inv {s : String} {cs : List Char} (h : JParse (.str s) cs) :
    ∃ body, cs = '"' :: body ++ ['"'] ∧ JStrBody s.data body := by
  cases h with
  | str s body hb => exact ⟨body, rfl, hb⟩

/-- C8 as universally stated is false: for the object `{"a": "x”y"}` —
whose value string contains a typographic double quote — the sanitizer
first normalises `”` to `"` and the cleaned text `{"a":"x"y"}` no longer
parses to the original pairs (the typographic quote of the original string
cannot occur in any strict-JSON spelling of it). -/
theorem c8_roundtrip_counterexample :
    ¬ JParse (.obj (.cons "a" (.str "x”y") .nil))
      (clean_json_response
        (fenceWrap ⟨renderSQ (.obj (.cons "a" (.str "x”y") .nil))⟩)).data := by
  intro h
  have hcs : (clean_json_response
      (fenceWrap ⟨renderSQ (.obj (.cons "a" (.str "x”y") .nil))⟩)).data =
      ['{', '"', 'a', '"', ':', '"', 'x', '"', 'y', '"', '}'] := by decide
  rw [hcs] at h
  obtain ⟨cs1, heq1, hm⟩ := jparse_obj_inv h
  have h1 := jmembers_one_inv hm
  obtain ⟨w1, body, w2, ecs, heq2, hkb, hel⟩ := jmember_inv h1
  obtain ⟨ew1, vcs, ew2, heq3, hpv⟩ := jelement_inv hel
  obtain ⟨sbody, heq4, hsb⟩ := jparse_str_inv hpv
  have m0 : '”' ∈ sbody := strbody_mem_keeps hsb (by decide)
  have hmem1 : '”' ∈ cs1 := by
    rw [heq2, heq3, heq4]
    simp [m0]
  have hmem2 : '”' ∈ (['{', '"', 'a', '"', ':', '"', 'x', '"', 'y', '"', '}'] : List Char) := by
    rw [heq1]
    simp [hmem1]
  exact absurd hmem2 (by decide)


/-! ## Extraction service: `extract_cv_data` and `summarize_jd` -/

/-- Python truthiness of a `PyVal`. -/
def pyTruthy : PyVal → Bool
  | .str s => !s.isEmpty
  | .int n => n != 0
  | .bool b => b
  | .none => false
  | .list xs => !xs.isEmpty
  | .dict m => !m.isEmpty

/-- Python `data[key] = value`: update in place or append. -/
def dictSet (m : List (String × PyVal)) (k : String) (v : PyVal) :
    List (String × PyVal) :=
  if (List.lookup k m).isSome then
    m.map fun kv => if kv.1 = k then (k, v) else kv
  else m ++ [(k, v)]

/-- Character class `[a-zA-Z0-9._%+-]` of the email regex's local part. -/
def emailA (c : Char) : Bool :=
  c.isAlphanum || c = '.' || c = '_' || c = '%' || c = '+' || c = '-'

/-- Character class `[a-zA-Z0-9.-]` of the email regex's domain part. -/
def emailB (c : Char) : Bool :=
  c.isAlphanum || c = '.' || c = '-'

/-- Attempt of the domain tail with the literal dot at index `k`:
requires `full[k] = '.'` followed by at least two letters, and yields the
whole matched domain (greedy letter run). -/
def emailTailAt (full : List Char) (k : ℕ) : Option (List Char) :=
  if full.get? k = some '.' then
    let t := (full.drop (k + 1)).takeWhile Char.isAlpha
    if 2 ≤ t.length then some (full.take k ++ '.' :: t) else Option.none
  else Option.none

/-- Backtracking of the greedy `[a-zA-Z0-9.-]+` before the literal dot:
tries the longest domain prefix first, then shorter ones, never empty. -/
def domSearch (full : List Char) : ℕ → Option (List Char)
  | 0 => Option.none
  | k + 1 =>
    match emailTailAt full (k + 1) with
    | some r => some r
    | Option.none => domSearch full k

/-- Match of the email regex anchored at the current position: a maximal
run of local-part characters, a literal `@`, and a domain. -/
def matchEmailAt (cs : List Char) : Option (List Char) :=
  let a := cs.takeWhile emailA
  if a.isEmpty then Option.none
  else
    match cs.drop a.length with
    | '@' :: r2 =>
      match domSearch r2 (r2.takeWhile emailB).length with
      | some d => some (a ++ '@' :: d)
      | Option.none => Option.none
    | _ => Option.none

/-- `re.search`: the match at the leftmost position where one starts. -/
def searchEmail : List Char → Option (List Char)
  | [] => Option.none
  | c :: rest =>
    match matchEmailAt (c :: rest) with
    | some m => some m
    | Option.none => searchEmail rest

/-- The `re.search(r'[a-zA-Z0-9._%+-]+@[a-zA-Z0-9.-]+\.[a-zA-Z]{2,}', text)`
scan of `extract_cv_data`. -/
def findEmail (s : String) : Option String :=
  (searchEmail s.data).map fun l => ⟨l⟩

/-- Behaviour of the external collaborators during one extraction call.
PyPDF2, the Gemini client and `json.loads` are not part of the repository:
page extraction is modelled from the spec (a page that fails to extract
contributes `none`, never an exception), the reader itself and the API
call may fail, and `json.loads` either returns a value or raises
`JSONDecodeError`. -/
structure ExtractEnv where
  pdfPages : Except String (List (Option String))
  validKey : Bool
  modelName : Option String
  apiResult : Except CallError (Option String)
  jsonLoads : String → Except String PyVal

/-- The page loop `for page in pdf_reader.pages: text += (page.extract_text()
or "") + "\n"`. -/
def buildText (pages : List (Option String)) : String :=
  pages.foldl (fun acc p => acc ++ p.getD "" ++ "\n") ""

/-- The body of `extract_cv_data` inside its outer `try`: an `Except.error`
is an exception reaching the outer handler. -/
def cvBody (env : ExtractEnv) : Except String PyVal :=
  match env.pdfPages with
  | .error e => .error e
  | .ok pages =>
    let text := buildText pages
    if (pyStrip text).isEmpty then .ok (.dict [])
    else
      let candidate_email := findEmail text
      if !env.validKey then .ok (.dict [])
      else
        match env.apiResult with
        | .error _ => .ok (.dict [])
        | .ok rtext =>
          let result := pyStrip (rtext.getD "")
          match env.jsonLoads (clean_json_response result) with
          | .error _ => .ok (.dict [])
          | .ok data =>
            match data with
            | .dict m =>
              if !pyTruthy ((dictGet m "email").getD .none) && candidate_email.isSome then
                .ok (.dict (dictSet m "email" (.str (candidate_email.getD ""))))
              else .ok (.dict m)
            | _ => .error "AttributeError"

/-- Embedding of `utils.extract_cv_data`: the outer `except` converts any
escaped exception into `{}`. -/
def extract_cv_data (env : ExtractEnv) : PyVal :=
  match cvBody env with
  | .ok v => v
  | .error _ => .dict []

/-- The body of `summarize_jd` inside its outer `try` (the validating
`json.loads` call and the parsing one see the same cleaned string, so a
single collaborator outcome covers both). -/
def jdBody (env : ExtractEnv) : Except String PyVal :=
  match env.pdfPages with
  | .error e => .error e
  | .ok pages =>
    let text := buildText pages
    if (pyStrip text).isEmpty then .ok (.dict [])
    else if !env.validKey then .ok (.dict [])
    else
      match env.apiResult with
      | .error _ => .ok (.dict [])
      | .ok rtext =>
        let result := pyStrip (rtext.getD "")
        match env.jsonLoads (clean_json_response result) with
        | .error _ => .ok (.dict [])
        | .ok data => .ok data

/-- Embedding of `utils.summarize_jd`. -/
def summarize_jd (env : ExtractEnv) : PyVal :=
  match jdBody env with
  | .ok v => v
  | .error _ => .dict []


/-- Every successful body of `extract_cv_data` produces a dict. -/
theorem cvBody_ok_dict (env : ExtractEnv) (v : PyVal) (h : cvBody env = .ok v) :
    ∃ m, v = .dict m := by
  unfold cvBody at h
  cases hpp : env.pdfPages with
  | error e => rw [hpp] at h; exact Except.noConfusion h
  | ok pages =>
    simp only [hpp] at h
    by_cases h1 : (pyStrip (buildText pages)).isEmpty = true
    · rw [if_pos h1] at h
      exact ⟨[], by injection h with h2; exact h2.symm⟩
    · rw [if_neg h1] at h
      by_cases h2 : (!env.validKey) = true
      · rw [if_pos h2] at h
        exact ⟨[], by injection h with h3; exact h3.symm⟩
      · rw [if_neg h2] at h
        cases hae : env.apiResult with
        | error ce => simp only [hae, Except.ok.injEq] at h; exact ⟨[], h.symm⟩
        | ok rtext =>
          simp only [hae] at h
          cases hjl : env.jsonLoads (clean_json_response (pyStrip (rtext.getD ""))) with
          | error e2 => simp only [hjl, Except.ok.injEq] at h; exact ⟨[], h.symm⟩
          | ok data =>
            simp only [hjl] at h
            cases data with
            | dict m =>
              dsimp only at h
              by_cases hq : (!pyTruthy ((dictGet m "email").getD PyVal.none) &&
                  (findEmail (buildText pages)).isSome) = true
              · rw [if_pos hq] at h
                exact ⟨_, by injection h with h4; exact h4.symm⟩
              · rw [if_neg hq] at h
                exact ⟨m, by injection h with h4; exact h4.symm⟩
            | str s => exact Except.noConfusion h
            | int n => exact Except.noConfusion h
            | bool b => exact Except.noConfusion h
            | none => exact Except.noConfusion h
            | list xs => exact Except.noConfusion h

/-- An empty stripped accumulated text short-circuits `extract_cv_data`. -/
theorem cvBody_empty (env : ExtractEnv) (pages : List (Option String))
    (hp : env.pdfPages = .ok pages)
    (hempty : (pyStrip (buildText pages)).isEmpty = true) :
    cvBody env = .ok (.dict []) := by
  unfold cvBody
  rw [hp]
  simp [hempty]

/-- An empty stripped accumulated text short-circuits `summarize_jd`. -/
theorem jdBody_empty (env : ExtractEnv) (pages : List (Option String))
    (hp : env.pdfPages = .ok pages)
    (hempty : (pyStrip (buildText pages)).isEmpty = true) :
    jdBody env = .ok (.dict []) := by
  unfold jdBody
  rw [hp]
  simp [hempty]

/-- Appending a fresh key to a map without it makes it readable back. -/
theorem lookup_append_fresh (k : String) (v : PyVal) :
    ∀ m : List (String × PyVal), (List.lookup k m).isSome = false →
      List.lookup k (m ++ [(k, v)]) = some v := by
  intro m
  induction m with
  | nil =>
    intro _
    simp [List.lookup]
  | cons kv t ih =>
    intro h
    obtain ⟨k1, v1⟩ := kv
    cases hb : (k == k1) with
    | false =>
      simp only [List.cons_append, List.lookup, hb]
      apply ih
      simpa [List.lookup, hb] using h
    | true =>
      exfalso
      simp [List.lookup, hb] at h

/-- Overwriting a present key in place makes it readable back. -/
theorem lookup_map_set (k : String) (v : PyVal) :
    ∀ m : List (String × PyVal), (List.lookup k m).isSome = true →
      List.lookup k (m.map fun kv => if kv.1 = k then (k, v) else kv) = some v := by
  intro m
  induction m with
  | nil =>
    intro h
    simp at h
  | cons kv t ih =>
    intro h
    obtain ⟨k1, v1⟩ := kv
    by_cases hk : k1 = k
    · subst hk
      simp only [List.map_cons, if_true]
      simp [List.lookup]
    · have hb : (k == k1) = false := by
        simp only [beq_eq_false_iff_ne, ne_eq]
        exact fun he => hk he.symm
      simp only [List.map_cons]
      rw [if_neg hk]
      simp only [List.lookup, hb]
      apply ih
      simpa [List.lookup, hb] using h

/-- Updating a key makes it readable back. -/
theorem dictGet_dictSet (m : List (String × PyVal)) (k : String) (v : PyVal) :
    dictGet (dictSet m k v) k = some v := by
  unfold dictGet dictSet
  cases hs : (List.lookup k m).isSome with
  | false =>
    rw [if_neg (by simp [hs])]
    exact lookup_append_fresh k v m hs
  | true =>
    rw [if_pos rfl]
    exact lookup_map_set k v m hs


/-- C5: for every behaviour of the collaborators, `extract_cv_data` returns a
dict (never an exception), any exception escaping its body is converted to
`{}`, and likewise any exception escaping the body of `summarize_jd`. -/
theorem c5_no_exception_to_caller (env : ExtractEnv) :
    (∃ m, extract_cv_data env = .dict m) ∧
    (∀ e, cvBody env = .error e → extract_cv_data env = .dict []) ∧
    (∀ e, jdBody env = .error e → summarize_jd env = .dict []) := by
  refine ⟨?_, ?_, ?_⟩
  · unfold extract_cv_data
    split
    · rename_i v hv
      obtain ⟨m, rfl⟩ := cvBody_ok_dict env v hv
      exact ⟨m, rfl⟩
    · exact ⟨[], rfl⟩
  · intro e he
    unfold extract_cv_data
    rw [he]
  · intro e he
    unfold summarize_jd
    rw [he]

/-- C5 witness: a PDF reader that raises is converted to `{}` by both
functions. -/
theorem c5_no_exception_to_caller_witness :
    (∃ m, extract_cv_data ⟨.error "read failure", true, some "gemini-1.5-flash",
        .ok (some "{}"), fun _ => .ok (.dict [])⟩ = .dict m) ∧
    extract_cv_data ⟨.error "read failure", true, some "gemini-1.5-flash",
        .ok (some "{}"), fun _ => .ok (.dict [])⟩ = .dict [] ∧
    summarize_jd ⟨.error "read failure", true, some "gemini-1.5-flash",
        .ok (some "{}"), fun _ => .ok (.dict [])⟩ = .dict [] :=
  ⟨(c5_no_exception_to_caller _).1,
    (c5_no_exception_to_caller _).2.1 "read failure" rfl,
    (c5_no_exception_to_caller _).2.2 "read failure" rfl⟩

/-- C6: a failed page contributes exactly the empty string without aborting
the remaining pages, and an empty trimmed text returns `{}` from both
functions independently of the key-validation, API and JSON collaborators. -/
theorem c6_page_tolerance_short_circuit (pre post : List (Option String))
    (env env2 : ExtractEnv) (pages : List (Option String))
    (hp : env.pdfPages = .ok pages) (hp2 : env2.pdfPages = .ok pages)
    (hempty : (pyStrip (buildText pages)).isEmpty = true) :
    buildText (pre ++ Option.none :: post) = buildText (pre ++ some "" :: post) ∧
    extract_cv_data env = .dict [] ∧ summarize_jd env = .dict [] ∧
    extract_cv_data env = extract_cv_data env2 ∧
    summarize_jd env = summarize_jd env2 := by
  have h1 : extract_cv_data env = .dict [] := by
    unfold extract_cv_data
    rw [cvBody_empty env pages hp hempty]
  have h2 : summarize_jd env = .dict [] := by
    unfold summarize_jd
    rw [jdBody_empty env pages hp hempty]
  have h3 : extract_cv_data env2 = .dict [] := by
    unfold extract_cv_data
    rw [cvBody_empty env2 pages hp2 hempty]
  have h4 : summarize_jd env2 = .dict [] := by
    unfold summarize_jd
    rw [jdBody_empty env2 pages hp2 hempty]
  refine ⟨?_, h1, h2, h1.trans h3.symm, h2.trans h4.symm⟩
  unfold buildText
  rw [List.foldl_append, List.foldl_append]
  rfl

/-- C6 witness. -/
theorem c6_page_tolerance_short_circuit_witness :
    buildText ([some "a"] ++ Option.none :: [some "b"]) =
      buildText ([some "a"] ++ some "" :: [some "b"]) ∧
    extract_cv_data ⟨.ok [Option.none, some "  "], true,
        some "gemini-1.5-flash", .ok (some "{}"), fun _ => .ok (.dict [])⟩ = .dict [] ∧
    summarize_jd ⟨.ok [Option.none, some "  "], true,
        some "gemini-1.5-flash", .ok (some "{}"), fun _ => .ok (.dict [])⟩ = .dict [] ∧
    extract_cv_data ⟨.ok [Option.none, some "  "], true,
        some "gemini-1.5-flash", .ok (some "{}"), fun _ => .ok (.dict [])⟩ =
      extract_cv_data ⟨.ok [Option.none, some "  "], false,
        Option.none, .error (.other "down"), fun _ => .error "bad"⟩ ∧
    summarize_jd ⟨.ok [Option.none, some "  "], true,
        some "gemini-1.5-flash", .ok (some "{}"), fun _ => .ok (.dict [])⟩ =
      summarize_jd ⟨.ok [Option.none, some "  "], false,
        Option.none, .error (.other "down"), fun _ => .error "bad"⟩ :=
  c6_page_tolerance_short_circuit [some "a"] [some "b"] _ _
    [Option.none, some "  "] rfl rfl (by decide)

/-- C9: when the parsed record's email is absent or falsy and the raw text
matches the email regex, the returned record's email field is that first
match. -/
theorem c9_email_backfill (env : ExtractEnv) (pages : List (Option String))
    (m : List (String × PyVal)) (em rt : String)
    (hp : env.pdfPages = .ok pages)
    (hne : (pyStrip (buildText pages)).isEmpty = false)
    (hk : env.validKey = true)
    (ha : env.apiResult = .ok (some rt))
    (hj : env.jsonLoads (clean_json_response (pyStrip rt)) = .ok (.dict m))
    (hnoemail : pyTruthy ((dictGet m "email").getD .none) = false)
    (hfound : findEmail (buildText pages) = some em) :
    extract_cv_data env = .dict (dictSet m "email" (.str em)) ∧
    dictGet (dictSet m "email" (.str em)) "email" = some (.str em) := by
  refine ⟨?_, dictGet_dictSet m "email" (.str em)⟩
  have hbody : cvBody env = .ok (.dict (dictSet m "email" (.str em))) := by
    unfold cvBody
    simp only [hp, ha, Option.getD_some]
    rw [if_neg (by simp [hne]), if_neg (by simp [hk])]
    simp only [hj, hfound, hnoemail, Option.isSome_some, Option.getD_some,
      Bool.not_false, Bool.and_self, if_true]
  unfold extract_cv_data
  rw [hbody]

/-- C9 witness. -/
theorem c9_email_backfill_witness :
    extract_cv_data ⟨.ok [some "contact: a@b.co"], true, some "gemini-1.5-flash",
        .ok (some "{}"),
        fun s => if s = "{}" then .ok (.dict []) else .error "bad"⟩ =
      .dict (dictSet [] "email" (.str "a@b.co")) ∧
    dictGet (dictSet [] "email" (.str "a@b.co")) "email" =
      some (.str "a@b.co") :=
  c9_email_backfill _ [some "contact: a@b.co"] [] "a@b.co" "{}" rfl
    (by decide) rfl rfl rfl rfl (by decide)

end ATS
